import Mathlib

/-!
mkctx: file discovery, ignore rules and context assembly.

A shallow embedding of `src/main.go` (package `main` of `mkctx`) together with
the parts of the Go standard library it calls (`strings`, `path/filepath` on a
Unix system, where the path separator is `/`).

Modelling conventions.

* A Go `string` is modelled as a list of Unicode code points (`Str`), that is,
  strings are taken to be valid UTF-8 text.  Literals are written
  `"...".toList`.  `filepath.Match`, which in Go walks the bytes of its
  arguments and can stop between the bytes of one code point, runs on the
  UTF-8 encoding of the two strings (`toBytes`).
* The file system is an explicit value: a tree of named directory entries for
  `filepath.Walk`, and a partial function from paths to contents for
  `os.ReadFile`.
* Loops with an early `return` become recursive functions returning as soon as
  the Go code returns.
-/

namespace Mkctx

/-- A Go string: a sequence of code points. -/
abbrev Str := List Char

/-! ## Package `strings` -/

/-- Go `strings.HasPrefix(s, p)`. -/
def HasPrefix : Str → Str → Bool
  | _, [] => true
  | [], _ :: _ => false
  | c :: s, d :: p => c == d && HasPrefix s p

/-- Go `strings.Contains(s, substr)`: `substr` occurs at some offset of `s`. -/
def Contains : Str → Str → Bool
  | [], substr => HasPrefix [] substr
  | c :: s, substr => HasPrefix (c :: s) substr || Contains s substr

/-- Go `strings.HasSuffix(s, suffix)`. -/
def HasSuffix (s suffix : Str) : Bool :=
  HasPrefix s.reverse suffix.reverse

/-- Go `strings.TrimSuffix(s, suffix)`: `s` without the trailing `suffix`, or
`s` itself when it does not end with `suffix`. -/
def TrimSuffix (s suffix : Str) : Str :=
  if HasSuffix s suffix then s.take (s.length - suffix.length) else s

/-- The helper of `splitOn`: `cur` is the piece being read, in reverse. -/
def splitAux (sep : Char) : Str → Str → List Str
  | [], cur => [cur.reverse]
  | c :: s, cur =>
    if c = sep then cur.reverse :: splitAux sep s [] else splitAux sep s (c :: cur)

/-- Go `strings.Split(s, sep)` for a separator of one character: the pieces of
`s` between the occurrences of `sep`; always at least one piece. -/
def Split (s : Str) (sep : Char) : List Str :=
  splitAux sep s []

/-- Go `unicode.IsSpace`: the code points with the Unicode White_Space
property. -/
def isSpace (c : Char) : Bool :=
  let n := c.toNat
  (9 ≤ n && n ≤ 13) || n = 0x20 || n = 0x85 || n = 0xA0 || n = 0x1680 ||
  (0x2000 ≤ n && n ≤ 0x200A) || n = 0x2028 || n = 0x2029 || n = 0x202F ||
  n = 0x205F || n = 0x3000

/-- Go `strings.TrimSpace(s)`: `s` without leading and trailing white space. -/
def TrimSpace (s : Str) : Str :=
  ((s.dropWhile isSpace).reverse.dropWhile isSpace).reverse

/-! ## Package `path/filepath` (Unix): `Match` -/

/-- The bytes of a Go string; a byte is a natural number below 256. -/
abbrev Bytes := List Nat

/-- The UTF-8 encoding of one code point. -/
def encodeRune (c : Char) : Bytes :=
  let n := c.toNat
  if n < 0x80 then [n]
  else if n < 0x800 then [0xC0 + n / 64, 0x80 + n % 64]
  else if n < 0x10000 then [0xE0 + n / 4096, 0x80 + n / 64 % 64, 0x80 + n % 64]
  else [0xF0 + n / 262144, 0x80 + n / 4096 % 64, 0x80 + n / 64 % 64, 0x80 + n % 64]

/-- The bytes of a string: the UTF-8 encodings of its code points. -/
def toBytes : Str → Bytes
  | [] => []
  | c :: s => encodeRune c ++ toBytes s

/-- Go `utf8.RuneError`. -/
def RuneError : Nat := 0xFFFD

/-- Go `utf8.DecodeRuneInString(s)`: the first rune of the bytes and its
width; `(RuneError, 0)` for no bytes and `(RuneError, 1)` when the bytes do
not start with a well-formed encoding. -/
def DecodeRune (s : Bytes) : Nat × Nat :=
  match s with
  | [] => (RuneError, 0)
  | b0 :: t =>
    if b0 < 0x80 then (b0, 1)
    else if b0 < 0xC2 then (RuneError, 1)
    else if b0 < 0xE0 then
      match t with
      | b1 :: _ =>
        if 0x80 ≤ b1 ∧ b1 ≤ 0xBF then (b0 % 32 * 64 + b1 % 64, 2) else (RuneError, 1)
      | [] => (RuneError, 1)
    else if b0 < 0xF0 then
      match t with
      | b1 :: b2 :: _ =>
        if (if b0 = 0xE0 then 0xA0 else 0x80) ≤ b1 ∧ b1 ≤ (if b0 = 0xED then 0x9F else 0xBF) ∧
            0x80 ≤ b2 ∧ b2 ≤ 0xBF then
          (b0 % 16 * 4096 + b1 % 64 * 64 + b2 % 64, 3)
        else (RuneError, 1)
      | _ => (RuneError, 1)
    else if b0 < 0xF5 then
      match t with
      | b1 :: b2 :: b3 :: _ =>
        if (if b0 = 0xF0 then 0x90 else 0x80) ≤ b1 ∧ b1 ≤ (if b0 = 0xF4 then 0x8F else 0xBF) ∧
            0x80 ≤ b2 ∧ b2 ≤ 0xBF ∧ 0x80 ≤ b3 ∧ b3 ≤ 0xBF then
          (b0 % 8 * 262144 + b1 % 64 * 4096 + b2 % 64 * 64 + b3 % 64, 4)
        else (RuneError, 1)
      | _ => (RuneError, 1)
    else (RuneError, 1)

/-- The leading `for` loop of `scanChunk`: drops the leading stars of the
pattern and records whether there was one. -/
def scanStars : Bool → Bytes → Bool × Bytes
  | star, [] => (star, [])
  | star, c :: pattern =>
    if c = '*'.toNat then scanStars true pattern else (star, c :: pattern)

/-- The `Scan` loop of `scanChunk`: splits the pattern before the first star
that is outside a bracket expression; a backslash protects the next byte. -/
def scanLoop : Bool → Bytes → Bytes × Bytes
  | _, [] => ([], [])
  | inrange, c :: t =>
    if c = '\\'.toNat then
      match t with
      | [] => ([c], [])
      | d :: t2 => let r := scanLoop inrange t2; (c :: d :: r.1, r.2)
    else if c = '['.toNat then
      let r := scanLoop true t; (c :: r.1, r.2)
    else if c = ']'.toNat then
      let r := scanLoop false t; (c :: r.1, r.2)
    else if c = '*'.toNat then
      if !inrange then ([], c :: t) else let r := scanLoop inrange t; (c :: r.1, r.2)
    else
      let r := scanLoop inrange t; (c :: r.1, r.2)

/-- Go `scanChunk(pattern)`: `(star, chunk, rest)`. -/
def scanChunk (pattern : Bytes) : Bool × Bytes × Bytes :=
  let st := scanStars false pattern
  let r := scanLoop false st.2
  (st.1, r.1, r.2)

/-- Go `getEsc(chunk)`: a possibly escaped rune of a character class and the
rest of the chunk; `ErrBadPattern` is `Except.error ()`. -/
def getEsc (chunk : Bytes) : Except Unit (Nat × Bytes) :=
  match chunk with
  | [] => .error ()
  | c :: t =>
    if c = '-'.toNat ∨ c = ']'.toNat then .error ()
    else
      let chunk1 := if c = '\\'.toNat then t else c :: t
      if chunk1 = [] then .error ()
      else
        let d := DecodeRune chunk1
        let nchunk := chunk1.drop d.2
        if (d.1 = RuneError ∧ d.2 = 1) ∨ nchunk = [] then .error () else .ok (d.1, nchunk)

/-- The range-parsing loop of a character class in `matchChunk`: returns
whether the rune `r` lies in one of the ranges, and the chunk after the
closing bracket.  Every round consumes a byte, so `fuel` above the length of
the chunk is never used up. -/
def classLoop : Nat → Bytes → Nat → Bool → Nat → Except Unit (Bool × Bytes)
  | 0, _, _, _, _ => .error ()
  | fuel + 1, chunk, r, isMatch, nrange =>
    if chunk.head? = some ']'.toNat ∧ nrange > 0 then .ok (isMatch, chunk.tail)
    else
      match getEsc chunk with
      | .error e => .error e
      | .ok (lo, chunk1) =>
        if chunk1.head? = some '-'.toNat then
          match getEsc chunk1.tail with
          | .error e => .error e
          | .ok (hi, chunk2) =>
            classLoop fuel chunk2 r (isMatch || (decide (lo ≤ r) && decide (r ≤ hi))) (nrange + 1)
        else
          classLoop fuel chunk1 r (isMatch || (decide (lo ≤ r) && decide (r ≤ lo))) (nrange + 1)

/-- The loop of Go `matchChunk(chunk, s)`, with the flag `failed`.  The result
is `ErrBadPattern`, or `none` (no match), or `some rest` (the chunk matches a
beginning of `s` and `rest` follows it).  A literal is compared byte by byte;
`?` and a character class read one rune with `DecodeRune`, which takes a
single byte when the bytes are not a well-formed encoding. -/
def matchChunkLoop : Nat → Bytes → Bytes → Bool → Except Unit (Option Bytes)
  | 0, _, _, _ => .error ()
  | fuel + 1, chunk, s, failed =>
    match chunk with
    | [] => if failed then .ok none else .ok (some s)
    | c :: ct =>
      let failed := failed || s.isEmpty
      if c = '['.toNat then
        let r : Nat := if failed then 0 else (DecodeRune s).1
        let s1 := if failed then s else s.drop (DecodeRune s).2
        let negated := decide (ct.head? = some '^'.toNat)
        let chunk1 := if negated then ct.tail else ct
        match classLoop (chunk1.length + 1) chunk1 r false 0 with
        | .error e => .error e
        | .ok (isMatch, chunk2) =>
          matchChunkLoop fuel chunk2 s1 (failed || (isMatch == negated))
      else if c = '?'.toNat then
        if failed then matchChunkLoop fuel ct s failed
        else
          matchChunkLoop fuel ct (s.drop (DecodeRune s).2) (decide (s.head? = some '/'.toNat))
      else
        let chunk1 := if c = '\\'.toNat then ct else c :: ct
        match chunk1 with
        | [] => .error ()
        | d :: dt =>
          if failed then matchChunkLoop fuel dt s failed
          else matchChunkLoop fuel dt s.tail (decide (s.head? ≠ some d))

/-- Go `matchChunk(chunk, s)`. -/
def matchChunk (chunk s : Bytes) : Except Unit (Option Bytes) :=
  matchChunkLoop (chunk.length + 1) chunk s false

/-- The inner loop of `Match` after a star: tries the chunk after skipping
`i + 1` bytes of the name, never skipping a `/`; `last` says that no pattern
is left after this chunk. -/
def starLoop (chunk : Bytes) (last : Bool) : Bytes → Except Unit (Option Bytes)
  | [] => .ok none
  | c :: t =>
    if c = '/'.toNat then .ok none
    else
      match matchChunk chunk t with
      | .error e => .error e
      | .ok (some rest) => if last && !rest.isEmpty then starLoop chunk last t else .ok (some rest)
      | .ok none => starLoop chunk last t

/-- The last loop of `Match`, run before it answers `false`: the chunks of the
remaining pattern are checked for well-formedness against the empty name. -/
def checkRest : Nat → Bytes → Except Unit Bool
  | 0, _ => .error ()
  | fuel + 1, pattern =>
    if pattern = [] then .ok false
    else
      let sc := scanChunk pattern
      match matchChunk sc.2.1 [] with
      | .error e => .error e
      | .ok _ => checkRest fuel sc.2.2

/-- The `Pattern` loop of Go `filepath.Match`, on the bytes of the pattern and
of the name.  Every round shortens the pattern, so `fuel` above its length is
never used up. -/
def matchLoop : Nat → Bytes → Bytes → Except Unit Bool
  | 0, _, _ => .error ()
  | fuel + 1, pattern, name =>
    if pattern = [] then .ok (decide (name = []))
    else
      let sc := scanChunk pattern
      let star := sc.1
      let chunk := sc.2.1
      let rest := sc.2.2
      if star && chunk.isEmpty then .ok (!decide ('/'.toNat ∈ name))
      else
        match matchChunk chunk name with
        | .error e => .error e
        | .ok (some t) =>
          if t.isEmpty || !rest.isEmpty then matchLoop fuel rest t
          else if star then
            match starLoop chunk rest.isEmpty name with
            | .error e => .error e
            | .ok (some t2) => matchLoop fuel rest t2
            | .ok none => checkRest fuel rest
          else checkRest fuel rest
        | .ok none =>
          if star then
            match starLoop chunk rest.isEmpty name with
            | .error e => .error e
            | .ok (some t2) => matchLoop fuel rest t2
            | .ok none => checkRest fuel rest
          else checkRest fuel rest

/-- Go `filepath.Match(pattern, name)`: `.ok matched`, or `ErrBadPattern`
(`shouldIgnore` drops the error and keeps `matched`, which is `false` then).
As in Go, the matching runs on the bytes of the two strings. -/
def Match (pattern name : Str) : Except Unit Bool :=
  matchLoop ((toBytes pattern).length + 1) (toBytes pattern) (toBytes name)

/-! ## Package `path/filepath` (Unix): `Base`, `Ext`, `Clean`, `Join` -/

/-- Go `filepath.Base(path)`: the last element of the path, after removing
trailing slashes; `.` for the empty path and `/` for a path of slashes only. -/
def Base (path : Str) : Str :=
  if path = [] then ['.']
  else
    let stripped := (path.reverse.dropWhile (fun c => c == '/')).reverse
    let last := (stripped.reverse.takeWhile (fun c => c != '/')).reverse
    if last = [] then ['/'] else last

/-- Go `filepath.Ext(path)`: the suffix of the final element of the path that
starts at its last dot; empty when there is no dot.  `rev` is the path read
from its end, `acc` what has been read. -/
def extLoop : Str → Str → Str
  | [], _ => []
  | c :: rev, acc =>
    if c = '/' then []
    else if c = '.' then c :: acc
    else extLoop rev (c :: acc)

/-- Go `filepath.Ext(path)`. -/
def Ext (path : Str) : Str :=
  extLoop path.reverse []

/-- One element of a path read by `filepath.Clean`, against the elements kept
so far (the last one first): empty elements and `.` are dropped; `..` removes
the element before it, is dropped at the root of a rooted path, and is kept
when nothing but `..` precedes it. -/
def cleanStep (rooted : Bool) (kept : List Str) (elem : Str) : List Str :=
  if elem = [] ∨ elem = ['.'] then kept
  else if elem = ['.', '.'] then
    match kept with
    | [] => if rooted then [] else [elem]
    | top :: below => if top = ['.', '.'] then elem :: kept else below
  else elem :: kept

/-- The elements that `filepath.Clean` keeps, the last one first. -/
def cleanElems (path : Str) : List Str :=
  (Split path '/').foldl (cleanStep (decide (path.head? = some '/'))) []

/-- The elements of a path written with `/` between them. -/
def joinElems : List Str → Str
  | [] => []
  | [e] => e
  | e :: f :: es => e ++ '/' :: joinElems (f :: es)

/-- Go `filepath.Clean(path)`: the shortest path equivalent to `path` by purely
lexical processing. -/
def Clean (path : Str) : Str :=
  let body := joinElems (cleanElems path).reverse
  if path.head? = some '/' then '/' :: body
  else if body = [] then ['.']
  else body

/-- Go `filepath.Join(dir, name)` for two elements: empty elements are
ignored, the others are joined with `/` and the result is cleaned. -/
def Join (dir name : Str) : Str :=
  if dir = [] then (if name = [] then [] else Clean name)
  else if name = [] then Clean dir
  else Clean (dir ++ '/' :: name)

/-! ## Package `path/filepath`: `Walk` over an explicit file tree -/

/-- What `filepath.Walk` reads in a directory: the entries in the order in
which `Walk` visits them (`readDirNames` sorts the names).  An entry is a
non-directory (`file`), an entry whose `Lstat` fails (`noStat`), a directory
whose listing fails (`noRead`), or a directory with its own entries. -/
inductive Entries where
  | nil : Entries
  | file (name : Str) (rest : Entries) : Entries
  | noStat (name : Str) (rest : Entries) : Entries
  | noRead (name : Str) (rest : Entries) : Entries
  | dir (name : Str) (children : Entries) (rest : Entries) : Entries
  deriving Repr, DecidableEq

/-- What is found at the root path given to `filepath.Walk`. -/
inductive Tree where
  | file : Tree
  | noStat : Tree
  | noRead : Tree
  | dir (children : Entries) : Tree
  deriving Repr, DecidableEq

/-- The part of `os.FileInfo` that the program looks at. -/
structure FileInfo where
  IsDir : Bool
  deriving Repr, DecidableEq

/-- The `error` returned by a `WalkFunc`: `nil`, `filepath.SkipDir`,
`filepath.SkipAll` or any other error. -/
inductive WalkErr where
  | nil : WalkErr
  | SkipDir : WalkErr
  | SkipAll : WalkErr
  | other : WalkErr
  deriving Repr, DecidableEq

/-- A Go `filepath.WalkFunc` acting on a state `σ`: it receives the path, the
file info (`none` for Go `nil`), whether the error argument is non-nil, and the
current state. -/
abbrev WalkFunc (σ : Type) := Str → Option FileInfo → Bool → σ → σ × WalkErr

/-- The loop of Go `filepath.walk` over the entries of the directory `path`,
with the call of `walk` on each entry unfolded.  Returns the final state and
the error with which the loop ends. -/
def walkEntries {σ : Type} (walkFn : WalkFunc σ) (path : Str) : Entries → σ → σ × WalkErr
  | .nil, s => (s, .nil)
  | .file name rest, s =>
    let r := walkFn (Join path name) (some ⟨false⟩) false s
    if r.2 ≠ .nil then r else walkEntries walkFn path rest r.1
  | .noStat name rest, s =>
    let r := walkFn (Join path name) none true s
    if r.2 ≠ .nil ∧ r.2 ≠ .SkipDir then r else walkEntries walkFn path rest r.1
  | .noRead name rest, s =>
    let r := walkFn (Join path name) (some ⟨true⟩) true s
    if r.2 ≠ .nil ∧ r.2 ≠ .SkipDir then r else walkEntries walkFn path rest r.1
  | .dir name children rest, s =>
    let r1 := walkFn (Join path name) (some ⟨true⟩) false s
    let r := if r1.2 ≠ .nil then r1 else walkEntries walkFn (Join path name) children r1.1
    if r.2 ≠ .nil ∧ r.2 ≠ .SkipDir then r else walkEntries walkFn path rest r.1

/-- Go `filepath.Walk(root, fn)` on the tree found at `root`; the final state
and the returned error. -/
def Walk {σ : Type} (tree : Tree) (root : Str) (fn : WalkFunc σ) (s : σ) : σ × WalkErr :=
  let r :=
    match tree with
    | .noStat => fn root none true s
    | .file => fn root (some ⟨false⟩) false s
    | .noRead => fn root (some ⟨true⟩) true s
    | .dir children =>
      let r1 := fn root (some ⟨true⟩) false s
      if r1.2 ≠ .nil then r1 else walkEntries fn root children r1.1
  if r.2 = .SkipDir ∨ r.2 = .SkipAll then (r.1, .nil) else r

/-! ## `main.go` -/

/-- The Go struct `Config`. -/
structure Config where
  Src : Str
  Ignore : Str
  Output : Str
  FirstComment : Str
  LastComment : Str
  deriving Repr, DecidableEq

/-- The body of the `for _, pattern := range ignorePatterns` loop of
`shouldIgnore`, returning `true` as soon as the Go code does. -/
def ignoreLoop (path : Str) : List Str → Bool
  | [] => false
  | pattern :: rest =>
    let pattern := TrimSpace pattern
    if pattern = [] then ignoreLoop path rest
    else if Contains pattern "*".toList &&
        (match Match pattern (Base path) with
          | .ok matched => matched
          | .error _ => false) then true
    else if HasSuffix pattern "/".toList && Contains path (TrimSuffix pattern "/".toList) then true
    else if Contains path pattern then true
    else ignoreLoop path rest

/-- Go `shouldIgnore(path, config)`. -/
def shouldIgnore (path : Str) (config : Config) : Bool :=
  if Contains path ".git".toList || Contains path ".DS_Store".toList ||
      Contains path "Thumbs.db".toList then true
  else if config.Ignore ≠ [] then ignoreLoop path (Split config.Ignore ',')
  else false

/-- The function literal passed to `filepath.Walk` in `getFiles`; the state is
the slice `files`. -/
def getFilesFn (config : Config) : WalkFunc (List Str) :=
  fun path info err files =>
    if err || shouldIgnore path config ||
        (match info with
          | some i => i.IsDir
          | none => false) then (files, .nil)
    else (files ++ [path], .nil)

/-- The variable `srcPath` of `getFiles`: `config.Src`, or `.` when that is
empty. -/
def srcPath (config : Config) : Str :=
  if config.Src = [] then ".".toList else config.Src

/-- Go `getFiles(config)`, run on the tree found at the source path. -/
def getFiles (tree : Tree) (config : Config) : List Str :=
  (Walk tree (srcPath config) (getFilesFn config) []).1

/-- The language tag computed in `buildContent` from the extension of the
file. -/
def langTag (file : Str) : Str :=
  let ext := Ext file
  if ext ≠ [] then ext.drop 1 else "text".toList

/-- One round of the `for _, file := range files` loop of `buildContent`:
`content` is the builder, `readFile` stands for `os.ReadFile` (`none` when it
returns an error). -/
def buildStep (readFile : Str → Option Str) (content : Str) (file : Str) : Str :=
  match readFile file with
  | none => content
  | some fileContent =>
    content ++ ("```".toList ++ langTag file ++ "\n".toList) ++
      ("// ".toList ++ file ++ "\n".toList) ++ fileContent ++ "\n```\n\n".toList

/-- Go `buildContent(files, config)`. -/
def buildContent (readFile : Str → Option Str) (files : List Str) (config : Config) : Str :=
  let content : Str := if config.FirstComment ≠ [] then config.FirstComment ++ "\n\n".toList else []
  let content := files.foldl (buildStep readFile) content
  if config.LastComment ≠ [] then content ++ config.LastComment else content

/-- Go `updateGitignore()`, as the text that it writes to `.gitignore`:
`existing` is the result of `os.ReadFile(".gitignore")`, `none` when the read
returns an error. -/
def updateGitignore (existing : Option Str) : Str :=
  match existing with
  | some content =>
    if !Contains content "mkctx/".toList then
      content ++ "\n# mkctx - generated context\nmkctx/\n".toList
    else content
  | none => "# mkctx - generated context\nmkctx/\n".toList

/-- Go `getDefaultConfig()`; the field `Ignore` is not set and keeps the zero
value. -/
def getDefaultConfig : Config :=
  { Src := ".".toList
    Ignore := []
    Output := ".".toList
    FirstComment := "/* Project Context */".toList
    LastComment := "/* End of Context */".toList }

/-- Go `loadConfig()`: `file` is the result of
`os.ReadFile("mkctx.config.json")`, `none` when the read returns an error, and
`unmarshal` stands for `json.Unmarshal(file, &config)` acting on the zero
value of `Config`. -/
def loadConfig (file : Option Str) (unmarshal : Str → Config → Config) : Config :=
  match file with
  | none => getDefaultConfig
  | some bytes =>
    let config := unmarshal bytes ⟨[], [], [], [], []⟩
    let config := if config.Src = [] then { config with Src := ".".toList } else config
    let config := if config.Output = [] then { config with Output := ".".toList } else config
    config

/-! ## Notions used to state the properties -/

/-- Whether the glob `pattern` matches `name`: `filepath.Match` reports a match
and no error. -/
def globMatches (pattern name : Str) : Prop :=
  Match pattern name = .ok true

/-- The three tests that the loop of `shouldIgnore` applies to one trimmed,
non-empty pattern. -/
def patternHits (path pattern : Str) : Bool :=
  (Contains pattern "*".toList &&
    (match Match pattern (Base path) with
      | .ok matched => matched
      | .error _ => false)) ||
  (HasSuffix pattern "/".toList && Contains path (TrimSuffix pattern "/".toList)) ||
  Contains path pattern

/-- The hardcoded rule, in the words of the specification: the path contains
one of the three markers. -/
def hasMarker (path : Str) : Prop :=
  ".git".toList <:+: path ∨ ".DS_Store".toList <:+: path ∨ "Thumbs.db".toList <:+: path

/-- One configured pattern `p` against a path, in the words of the
specification: `p` contains a star and glob-matches the base name; or `p` ends
with `/` and the path contains `p` without that one trailing `/`; or the path
contains `p`. -/
def entryApplies (path p : Str) : Prop :=
  ('*' ∈ p ∧ globMatches p (Base path)) ∨
  (∃ d, p = d ++ ['/'] ∧ d <:+: path) ∨
  p <:+: path

/-- The ignore rule in the words of the specification: a hardcoded marker, or
some entry of the ignore spec, split on commas, trimmed and non-empty, that
applies to the path. -/
def ignoreRule (path : Str) (config : Config) : Prop :=
  hasMarker path ∨
  ∃ e ∈ Split config.Ignore ',', TrimSpace e ≠ [] ∧ entryApplies path (TrimSpace e)

/-- The section that `buildContent` writes for one file, in the words of the
specification: the opening fence with the language tag, the comment line with
the path, the content, the closing fence and a blank line. -/
def fileSection (file content : Str) : Str :=
  "```".toList ++ langTag file ++ "\n".toList ++ "// ".toList ++ file ++ "\n".toList ++
    content ++ "\n```\n\n".toList

/-- The sections of the files of a list, in the order of the list; a file
whose read fails has none. -/
def sections (readFile : Str → Option Str) : List Str → Str
  | [] => []
  | file :: files =>
    (match readFile file with
      | some content => fileSection file content
      | none => []) ++ sections readFile files

/-- One call of the walk function during a traversal: the path, the file
info and whether an error is passed. -/
structure Visit where
  path : Str
  info : Option FileInfo
  err : Bool
  deriving Repr, DecidableEq

/-- The nodes below the directory `path` in the order in which `Walk` visits
them: every entry, then what is below it when it is a readable directory, then
the next entry. -/
def entriesVisits (path : Str) : Entries → List Visit
  | .nil => []
  | .file name rest => ⟨Join path name, some ⟨false⟩, false⟩ :: entriesVisits path rest
  | .noStat name rest => ⟨Join path name, none, true⟩ :: entriesVisits path rest
  | .noRead name rest => ⟨Join path name, some ⟨true⟩, true⟩ :: entriesVisits path rest
  | .dir name children rest =>
    ⟨Join path name, some ⟨true⟩, false⟩ ::
      (entriesVisits (Join path name) children ++ entriesVisits path rest)

/-- The nodes of the tree found at `root`, in visitation order. -/
def treeVisits (root : Str) : Tree → List Visit
  | .file => [⟨root, some ⟨false⟩, false⟩]
  | .noStat => [⟨root, none, true⟩]
  | .noRead => [⟨root, some ⟨true⟩, true⟩]
  | .dir children => ⟨root, some ⟨true⟩, false⟩ :: entriesVisits root children

/-- Whether the function literal of `getFiles` appends the path of a visit. -/
def keeps (config : Config) (v : Visit) : Bool :=
  !(v.err || shouldIgnore v.path config ||
    (match v.info with
      | some i => i.IsDir
      | none => false))

/-- A name that a directory entry can have: not empty, without `/`, and
neither `.` nor `..`. -/
def validName (name : Str) : Bool :=
  decide (name ≠ []) && decide ('/' ∉ name) && decide (name ≠ ['.']) &&
    decide (name ≠ ['.', '.'])

/-- The names of the entries of a directory. -/
def entryNames : Entries → List Str
  | .nil => []
  | .file name rest => name :: entryNames rest
  | .noStat name rest => name :: entryNames rest
  | .noRead name rest => name :: entryNames rest
  | .dir name _ rest => name :: entryNames rest

/-- Every entry, at every depth, has a valid name. -/
def Entries.validNames : Entries → Bool
  | .nil => true
  | .file name rest => validName name && rest.validNames
  | .noStat name rest => validName name && rest.validNames
  | .noRead name rest => validName name && rest.validNames
  | .dir name children rest => validName name && children.validNames && rest.validNames

/-- In every directory, at every depth, the names of the entries are
distinct. -/
def Entries.distinctNames : Entries → Bool
  | .nil => true
  | .file name rest => decide (name ∉ entryNames rest) && rest.distinctNames
  | .noStat name rest => decide (name ∉ entryNames rest) && rest.distinctNames
  | .noRead name rest => decide (name ∉ entryNames rest) && rest.distinctNames
  | .dir name children rest =>
    decide (name ∉ entryNames rest) && children.distinctNames && rest.distinctNames

/-- No entry, at any depth, is reported with an error. -/
def Entries.noErrors : Entries → Bool
  | .nil => true
  | .file _ rest => rest.noErrors
  | .noStat _ _ => false
  | .noRead _ _ => false
  | .dir _ children rest => children.noErrors && rest.noErrors

/-- Every entry of the tree has a valid name. -/
def Tree.validNames : Tree → Bool
  | .dir children => children.validNames
  | _ => true

/-- Sibling names are distinct throughout the tree. -/
def Tree.distinctNames : Tree → Bool
  | .dir children => children.distinctNames
  | _ => true

/-- No node of the tree is reported with an error. -/
def Tree.noErrors : Tree → Bool
  | .file => true
  | .noStat => false
  | .noRead => false
  | .dir children => children.noErrors

/-- The kept elements that `Clean` can hold, the last one first: no element is
empty, contains `/` or is `.`, and `..` occurs only in a path that is not
rooted, with nothing but `..` before it. -/
def goodKept (rooted : Bool) : List Str → Prop
  | [] => True
  | e :: below =>
    e ≠ [] ∧ '/' ∉ e ∧ e ≠ ['.'] ∧
      (e = ['.', '.'] → rooted = false ∧ ∀ x ∈ below, x = ['.', '.']) ∧ goodKept rooted below

/-- The files of a list for which `buildContent` writes a section: those
whose read succeeds. -/
def emitted (readFile : Str → Option Str) (files : List Str) : List Str :=
  files.filter (fun f => (readFile f).isSome)

/-- The text after the last occurrence of `c` in `s`; all of `s` when `c` does
not occur in it. -/
def afterLast (c : Char) (s : Str) : Str :=
  (s.reverse.takeWhile (fun d => d != c)).reverse

/-- The final component of a path: the text after its last `/`. -/
def finalComponent (path : Str) : Str :=
  afterLast '/' path

/-- The pruning traversal of the specification, as a walk function: an error
is skipped, a flagged directory is skipped with its whole subtree
(`filepath.SkipDir`), a flagged file is skipped, a directory is not recorded,
and any other node is appended. -/
def prunedFn (config : Config) : WalkFunc (List Str) :=
  fun path info err files =>
    if err then (files, .nil)
    else if shouldIgnore path config then
      (files,
        if (match info with
          | some i => i.IsDir
          | none => false) then .SkipDir else .nil)
    else if (match info with
      | some i => i.IsDir
      | none => false) then (files, .nil)
    else (files ++ [path], .nil)

/-- The list that the pruning traversal of the specification returns. -/
def getFilesPruned (tree : Tree) (config : Config) : List Str :=
  (Walk tree (srcPath config) (prunedFn config) []).1

/-- The paths that the pruning traversal appends below the directory
`path`. -/
def prunedPaths (config : Config) (path : Str) : Entries → List Str
  | .nil => []
  | .file name rest =>
    (if shouldIgnore (Join path name) config then [] else [Join path name]) ++
      prunedPaths config path rest
  | .noStat _ rest => prunedPaths config path rest
  | .noRead _ rest => prunedPaths config path rest
  | .dir name children rest =>
    (if shouldIgnore (Join path name) config then []
      else prunedPaths config (Join path name) children) ++ prunedPaths config path rest

/-- Below the directory `path`, every node under a directory that
`shouldIgnore` flags is flagged too. -/
def Entries.ignoreInherited (config : Config) (path : Str) : Entries → Bool
  | .nil => true
  | .file _ rest => rest.ignoreInherited config path
  | .noStat _ rest => rest.ignoreInherited config path
  | .noRead _ rest => rest.ignoreInherited config path
  | .dir name children rest =>
    (!shouldIgnore (Join path name) config ||
      (entriesVisits (Join path name) children).all (fun v => shouldIgnore v.path config)) &&
    children.ignoreInherited config (Join path name) && rest.ignoreInherited config path

/-- In the tree found at `root`, every node under a directory that
`shouldIgnore` flags is flagged too. -/
def Tree.ignoreInherited (config : Config) (root : Str) : Tree → Bool
  | .dir children =>
    (!shouldIgnore root config ||
      (entriesVisits root children).all (fun v => shouldIgnore v.path config)) &&
    children.ignoreInherited config root
  | _ => true

/-! ## Lemmas on the string functions -/

theorem HasPrefix_iff (s p : Str) : HasPrefix s p = true ↔ p <+: s := by
  induction s generalizing p with
  | nil => cases p <;> simp [HasPrefix]
  | cons c s ih =>
    cases p with
    | nil => simp [HasPrefix]
    | cons d p =>
      simp only [HasPrefix, Bool.and_eq_true, beq_iff_eq, ih, List.cons_prefix_cons]
      constructor <;> rintro ⟨h1, h2⟩ <;> exact ⟨h1.symm, h2⟩

theorem Contains_iff (s sub : Str) : Contains s sub = true ↔ sub <:+: s := by
  induction s with
  | nil => simp [Contains, HasPrefix_iff, List.prefix_nil, List.infix_nil]
  | cons c s ih => simp [Contains, HasPrefix_iff, ih, List.infix_cons_iff]

theorem HasSuffix_iff (s x : Str) : HasSuffix s x = true ↔ x <:+ s := by
  simp [HasSuffix, HasPrefix_iff, List.reverse_prefix]

theorem TrimSuffix_append (d x : Str) : TrimSuffix (d ++ x) x = d := by
  have h : HasSuffix (d ++ x) x = true := (HasSuffix_iff _ _).2 ⟨d, rfl⟩
  simp [TrimSuffix, h]

theorem Contains_star_iff (p : Str) : Contains p "*".toList = true ↔ '*' ∈ p := by
  rw [Contains_iff]
  constructor
  · rintro ⟨a, b, h⟩
    rw [← h]
    simp
  · intro h
    obtain ⟨a, b, h⟩ := List.append_of_mem h
    exact ⟨a, b, by simp [h]⟩

theorem endsWithSlash_iff (path p : Str) :
    (HasSuffix p "/".toList = true ∧ Contains path (TrimSuffix p "/".toList) = true) ↔
      ∃ d, p = d ++ ['/'] ∧ d <:+: path := by
  constructor
  · rintro ⟨h1, h2⟩
    obtain ⟨d, hd⟩ := (HasSuffix_iff _ _).1 h1
    refine ⟨d, hd.symm, ?_⟩
    rw [← hd, TrimSuffix_append, Contains_iff] at h2
    exact h2
  · rintro ⟨d, rfl, h⟩
    refine ⟨(HasSuffix_iff _ _).2 ⟨d, rfl⟩, ?_⟩
    have e : TrimSuffix (d ++ ['/']) "/".toList = d := TrimSuffix_append d ['/']
    rw [e, Contains_iff]
    exact h

theorem patternHits_iff (path p : Str) : patternHits path p = true ↔ entryApplies path p := by
  unfold patternHits entryApplies globMatches
  rw [Bool.or_eq_true, Bool.or_eq_true, Bool.and_eq_true, Bool.and_eq_true, endsWithSlash_iff,
    Contains_star_iff, Contains_iff, or_assoc]
  cases h : Match p (Base path) with
  | error e => simp
  | ok m => cases m <;> simp

theorem ignoreLoop_eq_any (path : Str) (entries : List Str) :
    ignoreLoop path entries =
      entries.any (fun e => decide (TrimSpace e ≠ []) && patternHits path (TrimSpace e)) := by
  induction entries with
  | nil => rfl
  | cons e rest ih =>
    simp only [ignoreLoop, List.any_cons, ih]
    by_cases h : TrimSpace e = []
    · simp [h]
    · simp only [h, if_false, ne_eq, not_false_eq_true, decide_True, Bool.true_and, patternHits]
      cases h1 : (Contains (TrimSpace e) "*".toList &&
        (match Match (TrimSpace e) (Base path) with
          | .ok matched => matched
          | .error _ => false))
      · cases h2 : (HasSuffix (TrimSpace e) "/".toList &&
          Contains path (TrimSuffix (TrimSpace e) "/".toList))
        · cases h3 : Contains path (TrimSpace e) <;> simp
        · simp
      · simp

theorem Split_nil (sep : Char) : Split [] sep = [[]] := rfl

theorem TrimSpace_nil : TrimSpace [] = [] := rfl

theorem hasMarker_iff (path : Str) :
    (Contains path ".git".toList || Contains path ".DS_Store".toList ||
      Contains path "Thumbs.db".toList) = true ↔ hasMarker path := by
  simp only [Bool.or_eq_true, Contains_iff, hasMarker, or_assoc]

/-- The value of `shouldIgnore` as one boolean expression: the guard on the
empty ignore spec changes nothing, since splitting the empty spec leaves one
blank entry. -/
theorem shouldIgnore_eq (path : Str) (config : Config) :
    shouldIgnore path config =
      ((Contains path ".git".toList || Contains path ".DS_Store".toList ||
        Contains path "Thumbs.db".toList) ||
      (Split config.Ignore ',').any
        (fun e => decide (TrimSpace e ≠ []) && patternHits path (TrimSpace e))) := by
  unfold shouldIgnore
  cases hm : (Contains path ".git".toList || Contains path ".DS_Store".toList ||
      Contains path "Thumbs.db".toList)
  · by_cases hi : config.Ignore = []
    · simp [hi, Split_nil, TrimSpace_nil]
    · simp [hi, ignoreLoop_eq_any]
  · simp

theorem shouldIgnore_iff (path : Str) (config : Config) :
    shouldIgnore path config = true ↔ ignoreRule path config := by
  rw [shouldIgnore_eq, Bool.or_eq_true, hasMarker_iff, List.any_eq_true]
  unfold ignoreRule
  simp only [Bool.and_eq_true, decide_eq_true_eq, patternHits_iff]

theorem Split_of_not_mem (sep : Char) (s cur : Str) (h : sep ∉ s) :
    splitAux sep s cur = [cur.reverse ++ s] := by
  induction s generalizing cur with
  | nil => simp [splitAux]
  | cons c s ih =>
    have hc : c ≠ sep := fun e => h (by simp [e])
    have hs : sep ∉ s := fun e => h (List.mem_cons_of_mem _ e)
    simp [splitAux, hc, ih _ hs]

/-! ## The model of `Match`: bytes, runes and fuel -/

/-- Decoding the encoding of a code point gives the code point back, with the
width of its encoding, whatever follows. -/
theorem DecodeRune_encodeRune (c : Char) (rest : Bytes) :
    DecodeRune (encodeRune c ++ rest) = (c.toNat, (encodeRune c).length) := by
  have hv : c.toNat < 0xD800 ∨ (0xDFFF < c.toNat ∧ c.toNat < 0x110000) := c.valid
  unfold encodeRune
  simp only
  generalize c.toNat = n at hv
  by_cases h1 : n < 0x80
  · simp [h1, DecodeRune]
  · by_cases h2 : n < 0x800
    · rw [if_neg h1, if_pos h2]
      have a1 : ¬ (0xC0 + n / 64 < 0x80) := by omega
      have a2 : ¬ (0xC0 + n / 64 < 0xC2) := by omega
      have a3 : 0xC0 + n / 64 < 0xE0 := by omega
      have a4 : 0x80 ≤ 0x80 + n % 64 ∧ 0x80 + n % 64 ≤ 0xBF := by omega
      have a5 : (0xC0 + n / 64) % 32 * 64 + (0x80 + n % 64) % 64 = n := by omega
      simp only [DecodeRune, List.cons_append, List.nil_append, if_neg a1, if_neg a2, if_pos a3,
        if_pos a4, a5, List.length_cons, List.length_nil]
    · by_cases h3 : n < 0x10000
      · rw [if_neg h1, if_neg h2, if_pos h3]
        have a1 : ¬ (0xE0 + n / 4096 < 0x80) := by omega
        have a2 : ¬ (0xE0 + n / 4096 < 0xC2) := by omega
        have a3 : ¬ (0xE0 + n / 4096 < 0xE0) := by omega
        have a3b : 0xE0 + n / 4096 < 0xF0 := by omega
        have a4 : (if 0xE0 + n / 4096 = 0xE0 then 0xA0 else 0x80) ≤ 0x80 + n / 64 % 64 ∧
            0x80 + n / 64 % 64 ≤ (if 0xE0 + n / 4096 = 0xED then 0x9F else 0xBF) ∧
            0x80 ≤ 0x80 + n % 64 ∧ 0x80 + n % 64 ≤ 0xBF := by
          refine ⟨?_, ?_, by omega, by omega⟩
          · split <;> omega
          · split <;> omega
        have a5 : (0xE0 + n / 4096) % 16 * 4096 + (0x80 + n / 64 % 64) % 64 * 64 +
            (0x80 + n % 64) % 64 = n := by omega
        simp only [DecodeRune, List.cons_append, List.nil_append, if_neg a1, if_neg a2,
          if_neg a3, if_pos a3b, if_pos a4, a5, List.length_cons, List.length_nil]
      · rw [if_neg h1, if_neg h2, if_neg h3]
        have a1 : ¬ (0xF0 + n / 262144 < 0x80) := by omega
        have a2 : ¬ (0xF0 + n / 262144 < 0xC2) := by omega
        have a3 : ¬ (0xF0 + n / 262144 < 0xE0) := by omega
        have a3b : ¬ (0xF0 + n / 262144 < 0xF0) := by omega
        have a3c : 0xF0 + n / 262144 < 0xF5 := by omega
        have a4 : (if 0xF0 + n / 262144 = 0xF0 then 0x90 else 0x80) ≤ 0x80 + n / 4096 % 64 ∧
            0x80 + n / 4096 % 64 ≤ (if 0xF0 + n / 262144 = 0xF4 then 0x8F else 0xBF) ∧
            0x80 ≤ 0x80 + n / 64 % 64 ∧ 0x80 + n / 64 % 64 ≤ 0xBF ∧
            0x80 ≤ 0x80 + n % 64 ∧ 0x80 + n % 64 ≤ 0xBF := by
          refine ⟨?_, ?_, by omega, by omega, by omega, by omega⟩
          · split <;> omega
          · split <;> omega
        have a5 : (0xF0 + n / 262144) % 8 * 262144 + (0x80 + n / 4096 % 64) % 64 * 4096 +
            (0x80 + n / 64 % 64) % 64 * 64 + (0x80 + n % 64) % 64 = n := by omega
        simp only [DecodeRune, List.cons_append, List.nil_append, if_neg a1, if_neg a2,
          if_neg a3, if_neg a3b, if_pos a3c, if_pos a4, a5, List.length_cons, List.length_nil]

theorem DecodeRune_width (s : Bytes) (h : s ≠ []) : 1 ≤ (DecodeRune s).2 := by
  unfold DecodeRune
  cases s with
  | nil => exact absurd rfl h
  | cons b0 t =>
    simp only
    repeat' split
    all_goals simp

theorem getEsc_length (chunk : Bytes) (r : Nat) (rest : Bytes)
    (h : getEsc chunk = .ok (r, rest)) : rest.length < chunk.length := by
  cases chunk with
  | nil => simp [getEsc] at h
  | cons c t =>
    simp only [getEsc] at h
    by_cases h1 : c = '-'.toNat ∨ c = ']'.toNat
    · rw [if_pos h1] at h
      cases h
    · rw [if_neg h1] at h
      have hl : (if c = '\\'.toNat then t else c :: t).length ≤ (c :: t).length := by
        split <;> simp
      generalize (if c = '\\'.toNat then t else c :: t) = chunk1 at h hl
      split_ifs at h with h2 h3
      simp only [Except.ok.injEq, Prod.mk.injEq] at h
      obtain ⟨_, rfl⟩ := h
      have hw := DecodeRune_width _ h2
      have hpos : 0 < chunk1.length := List.length_pos.2 h2
      rw [List.length_drop]
      omega


theorem classLoop_fuel (f1 f2 : Nat) (chunk : Bytes) (r : Nat) (m : Bool) (n : Nat)
    (h1 : chunk.length < f1) (h2 : chunk.length < f2) :
    classLoop f1 chunk r m n = classLoop f2 chunk r m n := by
  induction f1 generalizing f2 chunk m n with
  | zero => omega
  | succ f1 ih =>
    cases f2 with
    | zero => omega
    | succ f2 =>
      unfold classLoop
      split
      · rfl
      · cases hg : getEsc chunk with
        | error e => rfl
        | ok p =>
          obtain ⟨lo, chunk1⟩ := p
          have hl := getEsc_length chunk lo chunk1 hg
          simp only
          split
          · cases hg2 : getEsc chunk1.tail with
            | error e => rfl
            | ok p2 =>
              obtain ⟨hi, chunk2⟩ := p2
              have hl2 := getEsc_length chunk1.tail hi chunk2 hg2
              have hl3 : chunk1.tail.length ≤ chunk1.length := by simp
              exact ih f2 chunk2 _ _ (by omega) (by omega)
          · exact ih f2 chunk1 _ _ (by omega) (by omega)

theorem classLoop_length (f : Nat) (chunk : Bytes) (r : Nat) (m : Bool) (n : Nat) (b : Bool)
    (rest : Bytes) (h : classLoop f chunk r m n = .ok (b, rest)) : rest.length < chunk.length := by
  induction f generalizing chunk m n with
  | zero => simp [classLoop] at h
  | succ f ih =>
    unfold classLoop at h
    split at h
    · rename_i hc
      simp only [Except.ok.injEq, Prod.mk.injEq] at h
      obtain ⟨_, rfl⟩ := h
      cases chunk with
      | nil => simp at hc
      | cons c t => simp
    · cases hg : getEsc chunk with
      | error e => simp [hg] at h
      | ok p =>
        obtain ⟨lo, chunk1⟩ := p
        have hl := getEsc_length chunk lo chunk1 hg
        simp only [hg] at h
        split at h
        · cases hg2 : getEsc chunk1.tail with
          | error e => simp [hg2] at h
          | ok p2 =>
            obtain ⟨hi, chunk2⟩ := p2
            have hl2 := getEsc_length chunk1.tail hi chunk2 hg2
            have hl3 : chunk1.tail.length ≤ chunk1.length := by simp
            simp only [hg2] at h
            have := ih _ _ _ h
            omega
        · have := ih _ _ _ h
          omega

theorem matchChunkLoop_fuel (f1 f2 : Nat) (chunk s : Bytes) (failed : Bool)
    (h1 : chunk.length < f1) (h2 : chunk.length < f2) :
    matchChunkLoop f1 chunk s failed = matchChunkLoop f2 chunk s failed := by
  induction f1 generalizing f2 chunk s failed with
  | zero => omega
  | succ f1 ih =>
    cases f2 with
    | zero => omega
    | succ f2 =>
      unfold matchChunkLoop
      cases chunk with
      | nil => rfl
      | cons c ct =>
        simp only [List.length_cons] at h1 h2
        simp only
        split
        · split
          · rfl
          · rename_i isMatch chunk2 hcl
            have hl := classLoop_length _ _ _ _ _ _ _ hcl
            have hl2 : (if decide (ct.head? = some '^'.toNat) = true then ct.tail else ct).length
                ≤ ct.length := by
              split <;> simp
            exact ih f2 chunk2 _ _ (by omega) (by omega)
        · split
          · split
            · exact ih f2 ct _ _ (by omega) (by omega)
            · exact ih f2 ct _ _ (by omega) (by omega)
          · split
            · rfl
            · rename_i d dt heq
              have hl : dt.length < (c :: ct).length := by
                have : (if c = '\\'.toNat then ct else c :: ct).length ≤ (c :: ct).length := by
                  split <;> simp
                rw [heq] at this
                simp at this ⊢
                omega
              simp only [List.length_cons] at hl
              split
              · exact ih f2 dt _ _ (by omega) (by omega)
              · exact ih f2 dt _ _ (by omega) (by omega)

theorem scanStars_length (star : Bool) (pattern : Bytes) :
    (scanStars star pattern).2.length ≤ pattern.length ∧
      ((scanStars star pattern).2.head? ≠ some '*'.toNat) ∧
      ((scanStars star pattern).2.length = pattern.length → pattern.head? ≠ some '*'.toNat) := by
  induction pattern generalizing star with
  | nil => simp [scanStars]
  | cons c p ih =>
    unfold scanStars
    by_cases hc : c = '*'.toNat
    · simp only [hc, if_true]
      have := ih true
      refine ⟨by simp; omega, this.2.1, ?_⟩
      intro h
      simp at h
      omega
    · have hc2 : ¬ c = 42 := hc
      simp [hc2]

theorem scanLoop_length_aux (n : Nat) : ∀ (pattern : Bytes) (inrange : Bool), pattern.length ≤ n →
    (scanLoop inrange pattern).2.length ≤ pattern.length ∧
      (pattern ≠ [] → pattern.head? ≠ some '*'.toNat →
        (scanLoop inrange pattern).2.length < pattern.length) := by
  induction n with
  | zero =>
    intro pattern inrange hn
    have : pattern = [] := List.length_eq_zero.1 (by omega)
    subst this
    simp [scanLoop]
  | succ n ih =>
    intro pattern inrange hn
    cases pattern with
    | nil => simp [scanLoop]
    | cons c t =>
      simp only [List.length_cons] at hn
      unfold scanLoop
      by_cases h1 : c = '\\'.toNat
      · simp only [h1, if_true]
        cases t with
        | nil => simp
        | cons d t2 =>
          simp only [List.length_cons] at hn
          have := (ih t2 inrange (by omega)).1
          simp
          omega
      · simp only [h1, if_false]
        by_cases h2 : c = '['.toNat
        · have := (ih t true (by omega)).1
          simp [h2]
          omega
        · simp only [h2, if_false]
          by_cases h3 : c = ']'.toNat
          · have := (ih t false (by omega)).1
            simp [h3]
            omega
          · simp only [h3, if_false]
            have := (ih t inrange (by omega)).1
            by_cases h4 : c = '*'.toNat
            · cases inrange
              · simp [h4]
              · simp [h4]
                omega
            · have h5 : ¬ c = 42 := h4
              simp [h5]
              omega

theorem scanLoop_length (inrange : Bool) (pattern : Bytes) :
    (scanLoop inrange pattern).2.length ≤ pattern.length ∧
      (pattern ≠ [] → pattern.head? ≠ some '*'.toNat →
        (scanLoop inrange pattern).2.length < pattern.length) :=
  scanLoop_length_aux pattern.length pattern inrange (Nat.le_refl _)

theorem scanChunk_length (pattern : Bytes) (h : pattern ≠ []) :
    (scanChunk pattern).2.2.length < pattern.length := by
  unfold scanChunk
  simp only
  obtain ⟨h1, h2, h3⟩ := scanStars_length false pattern
  obtain ⟨h4, h5⟩ := scanLoop_length false (scanStars false pattern).2
  by_cases hs : (scanStars false pattern).2 = []
  · rw [hs]
    simp [scanLoop]
    exact List.length_pos.2 h
  · have := h5 hs h2
    omega

theorem checkRest_fuel (f1 f2 : Nat) (pattern : Bytes)
    (h1 : pattern.length < f1) (h2 : pattern.length < f2) :
    checkRest f1 pattern = checkRest f2 pattern := by
  induction f1 generalizing f2 pattern with
  | zero => omega
  | succ f1 ih =>
    cases f2 with
    | zero => omega
    | succ f2 =>
      unfold checkRest
      split
      · rfl
      · rename_i hp
        have hl := scanChunk_length pattern hp
        simp only
        split
        · rfl
        · exact ih f2 _ (by omega) (by omega)

theorem matchLoop_fuel (f1 f2 : Nat) (pattern name : Bytes)
    (h1 : pattern.length < f1) (h2 : pattern.length < f2) :
    matchLoop f1 pattern name = matchLoop f2 pattern name := by
  induction f1 generalizing f2 pattern name with
  | zero => omega
  | succ f1 ih =>
    cases f2 with
    | zero => omega
    | succ f2 =>
      unfold matchLoop
      split
      · rfl
      · rename_i hp
        have hl := scanChunk_length pattern hp
        have hc := checkRest_fuel f1 f2 (scanChunk pattern).2.2 (by omega) (by omega)
        simp only
        split
        · rfl
        · split
          · rfl
          · split
            · exact ih f2 _ _ (by omega) (by omega)
            · split
              · split
                · rfl
                · exact ih f2 _ _ (by omega) (by omega)
                · exact hc
              · exact hc
          · split
            · split
              · rfl
              · exact ih f2 _ _ (by omega) (by omega)
              · exact hc
            · exact hc

/-- More fuel than the length of the pattern never changes the result of the
loop of `Match`. -/
theorem Match_fuel (fuel : Nat) (pattern name : Str) (h : (toBytes pattern).length < fuel) :
    matchLoop fuel (toBytes pattern) (toBytes name) = Match pattern name :=
  matchLoop_fuel _ _ _ _ h (Nat.lt_succ_self _)

/-- After a star the chunk is retried one byte further, as in Go, and `?` takes
a lone continuation byte as one rune: the two question marks of `*??` match
the last two bytes of the three-byte encoding of the euro sign. -/
theorem Match_star_skips_bytes :
    toBytes [Char.ofNat 0x20AC] = [0xE2, 0x82, 0xAC] ∧
      Match "*??".toList [Char.ofNat 0x20AC] = .ok true ∧
      Match "??".toList [Char.ofNat 0x20AC] = .ok false ∧
      Match "?".toList [Char.ofNat 0x20AC] = .ok true :=
  ⟨by decide, rfl, rfl, rfl⟩

/-! ## The ignore rules -/

/-- C3: `shouldIgnore` returns `true` exactly when the path contains one of the
three hardcoded markers, or some entry of the ignore spec (split on commas,
trimmed, non-empty) contains a star and glob-matches the base name, or ends
with `/` and occurs in the path without that slash, or occurs in the path; it
returns `false` when no rule applies, and a spec whose entries are all blank
behaves like the empty spec. -/
theorem C3_shouldIgnore_iff_rule (path : Str) (config : Config) :
    (shouldIgnore path config = true ↔ ignoreRule path config) ∧
    (¬ ignoreRule path config → shouldIgnore path config = false) ∧
    ((∀ e ∈ Split config.Ignore ',', TrimSpace e = []) →
      shouldIgnore path config = shouldIgnore path { config with Ignore := [] }) := by
  refine ⟨shouldIgnore_iff path config, ?_, ?_⟩
  · intro h
    cases hs : shouldIgnore path config
    · rfl
    · exact absurd ((shouldIgnore_iff path config).1 hs) h
  · intro h
    rw [shouldIgnore_eq, shouldIgnore_eq]
    congr 1
    have h1 : (Split config.Ignore ',').any
        (fun e => decide (TrimSpace e ≠ []) && patternHits path (TrimSpace e)) = false := by
      rw [List.any_eq_false]
      intro e he
      simp [h e he]
    rw [h1]
    rfl

/-- C3, at a concrete input: the spec ` , ,` of blank entries behaves like the
empty spec on `src/x.txt`. -/
theorem C3_shouldIgnore_iff_rule_witness :
    shouldIgnore "src/x.txt".toList ⟨".".toList, " , ,".toList, [], [], []⟩ =
      shouldIgnore "src/x.txt".toList ⟨".".toList, [], [], [], []⟩ :=
  (C3_shouldIgnore_iff_rule "src/x.txt".toList ⟨".".toList, " , ,".toList, [], [], []⟩).2.2
    (by decide)

/-- C4: a path that contains `.git`, `.DS_Store` or `Thumbs.db` anywhere is
ignored under every configuration, whatever its ignore spec. -/
theorem C4_markers_always_ignored (path : Str) (config : Config) (h : hasMarker path) :
    shouldIgnore path config = true :=
  (shouldIgnore_iff path config).2 (Or.inl h)

/-- C4, at a concrete input: `a/.github/ci.yml` under the empty ignore spec. -/
theorem C4_markers_always_ignored_witness :
    hasMarker "a/.github/ci.yml".toList ∧
      shouldIgnore "a/.github/ci.yml".toList ⟨".".toList, [], [], [], []⟩ = true :=
  ⟨Or.inl ⟨"a/".toList, "hub/ci.yml".toList, rfl⟩,
    C4_markers_always_ignored _ _ (Or.inl ⟨"a/".toList, "hub/ci.yml".toList, rfl⟩)⟩

/-- C5 as stated fails: with the single pattern `a*` the path `a*/x` has none
of the markers and its base name `x` is not matched by the glob, yet the path
is ignored, because it contains the pattern as a literal substring; so the
directory part does influence the result. -/
theorem C5_wildcard_counterexample :
    '*' ∈ "a*".toList ∧ ¬ hasMarker "a*/x".toList ∧
      Base "a*/x".toList = "x".toList ∧
      ¬ globMatches "a*".toList (Base "a*/x".toList) ∧
      shouldIgnore "a*/x".toList ⟨".".toList, "a*".toList, [], [], []⟩ = true ∧
      shouldIgnore "b/x".toList ⟨".".toList, "a*".toList, [], [], []⟩ = false := by
  refine ⟨by decide, ?_, by decide, ?_, by decide, by decide⟩
  · rw [← hasMarker_iff]
    decide
  · intro h
    have h2 : Match "a*".toList (Base "a*/x".toList) = .ok false := rfl
    rw [globMatches, h2] at h
    cases h

/-- C5, amended: when the ignore spec is a single entry (no comma) whose
trimmed text `p` contains a star, a path without hardcoded marker is ignored
exactly when `p` glob-matches its base name, or `p` ends with `/` and the path
contains `p` without that slash, or the path contains `p` itself. -/
theorem C5_wildcard_amended (path : Str) (config : Config)
    (hsole : ',' ∉ config.Ignore) (hstar : '*' ∈ TrimSpace config.Ignore)
    (hm : ¬ hasMarker path) :
    shouldIgnore path config = true ↔
      (globMatches (TrimSpace config.Ignore) (Base path) ∨
        (∃ d, TrimSpace config.Ignore = d ++ ['/'] ∧ d <:+: path) ∨
        TrimSpace config.Ignore <:+: path) := by
  have hne : TrimSpace config.Ignore ≠ [] := fun e => by simp [e] at hstar
  have hsplit : Split config.Ignore ',' = [config.Ignore] := by
    simpa [Split] using Split_of_not_mem ',' config.Ignore [] hsole
  rw [shouldIgnore_iff, ignoreRule, hsplit]
  simp only [List.mem_singleton, exists_eq_left, entryApplies, hm, false_or, hne, ne_eq,
    not_false_eq_true, true_and, hstar]

/-- C5 amended, at a concrete input: the spec ` *.log` and the path
`logs/b.log`. -/
theorem C5_wildcard_amended_witness :
    shouldIgnore "logs/b.log".toList ⟨".".toList, " *.log".toList, [], [], []⟩ = true ↔
      (globMatches (TrimSpace " *.log".toList) (Base "logs/b.log".toList) ∨
        (∃ d, TrimSpace " *.log".toList = d ++ ['/'] ∧ d <:+: "logs/b.log".toList) ∨
        TrimSpace " *.log".toList <:+: "logs/b.log".toList) :=
  C5_wildcard_amended "logs/b.log".toList ⟨".".toList, " *.log".toList, [], [], []⟩
    (by decide) (by decide) (by rw [← hasMarker_iff]; decide)

/-- C6: when an entry of the ignore spec, once trimmed, is `d` followed by the
separator `/`, every path that contains `d` anywhere as a substring is
ignored. -/
theorem C6_directory_entry (path d e : Str) (config : Config)
    (he : e ∈ Split config.Ignore ',') (hd : TrimSpace e = d ++ ['/']) (hp : d <:+: path) :
    shouldIgnore path config = true := by
  rw [shouldIgnore_iff]
  refine Or.inr ⟨e, he, ?_, Or.inr (Or.inl ⟨d, hd, hp⟩)⟩
  rw [hd]
  simp

/-- C6, at the input of the specification: the spec `node_modules/` and the
path `node_modules/x.js`. -/
theorem C6_directory_entry_witness :
    shouldIgnore "node_modules/x.js".toList ⟨".".toList, "node_modules/".toList, [], [], []⟩ =
      true :=
  C6_directory_entry "node_modules/x.js".toList "node_modules".toList "node_modules/".toList
    ⟨".".toList, "node_modules/".toList, [], [], []⟩ (by decide) (by decide)
    ⟨[], "/x.js".toList, rfl⟩

/-- C7: two configurations whose comma-separated ignore entries are
permutations of one another give the same answer for every path. -/
theorem C7_order_irrelevant (path : Str) (c1 c2 : Config)
    (h : (Split c1.Ignore ',').Perm (Split c2.Ignore ',')) :
    shouldIgnore path c1 = shouldIgnore path c2 := by
  rw [shouldIgnore_eq, shouldIgnore_eq]
  congr 1
  rw [Bool.eq_iff_iff, List.any_eq_true, List.any_eq_true]
  constructor
  · rintro ⟨e, he, hx⟩
    exact ⟨e, h.mem_iff.1 he, hx⟩
  · rintro ⟨e, he, hx⟩
    exact ⟨e, h.mem_iff.2 he, hx⟩

/-- C7, at a concrete input: the specs `*.log,tmp/` and `tmp/,*.log` on the
path `tmp/a.txt`. -/
theorem C7_order_irrelevant_witness :
    shouldIgnore "tmp/a.txt".toList ⟨".".toList, "*.log,tmp/".toList, [], [], []⟩ =
      shouldIgnore "tmp/a.txt".toList ⟨".".toList, "tmp/,*.log".toList, [], [], []⟩ :=
  C7_order_irrelevant "tmp/a.txt".toList ⟨".".toList, "*.log,tmp/".toList, [], [], []⟩
    ⟨".".toList, "tmp/,*.log".toList, [], [], []⟩ (List.Perm.swap _ _ _)

/-- The euro sign under the ignore spec `*??`: the glob matches its bytes (see
`Match_star_skips_bytes`), so the path is ignored and `getFiles` does not
return it. -/
theorem shouldIgnore_star_skips_bytes :
    shouldIgnore [Char.ofNat 0x20AC] ⟨".".toList, "*??".toList, [], [], []⟩ = true ∧
      getFiles (.dir (.file [Char.ofNat 0x20AC] .nil))
        ⟨".".toList, "*??".toList, [], [], []⟩ = [] := by
  decide

/-! ## Content assembly -/

theorem foldl_buildStep (readFile : Str → Option Str) (files : List Str) (content : Str) :
    files.foldl (buildStep readFile) content = content ++ sections readFile files := by
  induction files generalizing content with
  | nil => simp [sections]
  | cons file files ih =>
    rw [List.foldl_cons, ih]
    cases h : readFile file with
    | none => simp [buildStep, sections, h]
    | some c => simp [buildStep, sections, fileSection, h, List.append_assoc]

/-- The text returned by `buildContent`: header, sections, footer. -/
theorem buildContent_eq (readFile : Str → Option Str) (files : List Str) (config : Config) :
    buildContent readFile files config =
      (if config.FirstComment ≠ [] then config.FirstComment ++ "\n\n".toList else []) ++
        sections readFile files ++ config.LastComment := by
  unfold buildContent
  simp only [foldl_buildStep]
  by_cases h : config.LastComment = []
  · simp [h]
  · simp [h]

theorem sections_readable (readFile : Str → Option Str) (content : Str → Str) (files : List Str)
    (h : ∀ f ∈ files, readFile f = some (content f)) :
    sections readFile files = (files.map (fun f => fileSection f (content f))).flatten := by
  induction files with
  | nil => rfl
  | cons file files ih =>
    have h1 : readFile file = some (content file) := h file (List.mem_cons_self _ _)
    have h2 : ∀ f ∈ files, readFile f = some (content f) :=
      fun f hf => h f (List.mem_cons_of_mem _ hf)
    simp [sections, h1, ih h2]

/-- C8: when every file of the list is readable, `buildContent` returns the
header (`FirstComment` and a blank line, when `FirstComment` is not empty),
then one section per file in the order of the list, each made of the fence with
the language tag, the comment line with the path, the content and the closing
fence with a blank line, then `LastComment` when it is not empty. -/
theorem C8_buildContent_format (readFile : Str → Option Str) (content : Str → Str)
    (files : List Str) (config : Config) (h : ∀ f ∈ files, readFile f = some (content f)) :
    buildContent readFile files config =
      (if config.FirstComment ≠ [] then config.FirstComment ++ "\n\n".toList else []) ++
        (files.map (fun f =>
          "```".toList ++ langTag f ++ "\n".toList ++ "// ".toList ++ f ++ "\n".toList ++
            content f ++ "\n```\n\n".toList)).flatten ++
        (if config.LastComment ≠ [] then config.LastComment else []) := by
  rw [buildContent_eq, sections_readable readFile content files h]
  by_cases hl : config.LastComment = []
  · simp [hl, fileSection]
  · simp [hl, fileSection]

/-- C8, at a concrete input: the files `b.go` and `a` with the contents `x`
and `y`, a header and a footer. -/
theorem C8_buildContent_format_witness :
    buildContent (fun f => some (if f = "a".toList then "y".toList else "x".toList))
        ["b.go".toList, "a".toList] ⟨[], [], [], "H".toList, "F".toList⟩ =
      "H\n\n```go\n// b.go\nx\n```\n\n```text\n// a\ny\n```\n\nF".toList :=
  (C8_buildContent_format (fun f => some (if f = "a".toList then "y".toList else "x".toList))
    (fun f => if f = "a".toList then "y".toList else "x".toList)
    ["b.go".toList, "a".toList] ⟨[], [], [], "H".toList, "F".toList⟩
    (fun _ _ => rfl)).trans (by decide)

/-- C9: the text returned by `buildContent` begins with `FirstComment` when
that is not empty and ends with `LastComment` when that is not empty; when both
are empty it is the file sections alone. -/
theorem C9_header_footer (readFile : Str → Option Str) (files : List Str) (config : Config) :
    (config.FirstComment ≠ [] → config.FirstComment <+: buildContent readFile files config) ∧
    (config.LastComment ≠ [] → config.LastComment <:+ buildContent readFile files config) ∧
    (config.FirstComment = [] → config.LastComment = [] →
      buildContent readFile files config = sections readFile files) := by
  rw [buildContent_eq]
  refine ⟨?_, ?_, ?_⟩
  · intro h
    rw [if_pos h]
    exact ⟨"\n\n".toList ++ sections readFile files ++ config.LastComment, by
      simp [List.append_assoc]⟩
  · intro _
    exact ⟨_, rfl⟩
  · intro h1 h2
    simp [h1, h2]

/-- C9, at a concrete input: header `H`, footer `F` and one readable file. -/
theorem C9_header_footer_witness :
    "H".toList <+: buildContent (fun _ => some "x".toList) ["a.go".toList]
        ⟨[], [], [], "H".toList, "F".toList⟩ ∧
      "F".toList <:+ buildContent (fun _ => some "x".toList) ["a.go".toList]
        ⟨[], [], [], "H".toList, "F".toList⟩ :=
  ⟨(C9_header_footer (fun _ => some "x".toList) ["a.go".toList]
      ⟨[], [], [], "H".toList, "F".toList⟩).1 (by decide),
    (C9_header_footer (fun _ => some "x".toList) ["a.go".toList]
      ⟨[], [], [], "H".toList, "F".toList⟩).2.1 (by decide)⟩

/-- C10 as stated fails: for the empty list with `FirstComment` `H` and
`LastComment` `F`, `buildContent` returns `H`, a blank line, then `F`, which is
not `FirstComment ++ LastComment`. -/
theorem C10_empty_counterexample :
    buildContent (fun _ => none) [] ⟨[], [], [], "H".toList, "F".toList⟩ = "H\n\nF".toList ∧
      buildContent (fun _ => none) [] ⟨[], [], [], "H".toList, "F".toList⟩ ≠
        "H".toList ++ "F".toList := by
  decide

/-- C10, amended: for the empty list `buildContent` returns `FirstComment`
followed by a blank line when `FirstComment` is not empty, then `LastComment`,
with no file section; this is `FirstComment ++ LastComment` when `FirstComment`
is empty. -/
theorem C10_empty_amended (readFile : Str → Option Str) (config : Config) :
    buildContent readFile [] config =
        (if config.FirstComment ≠ [] then config.FirstComment ++ "\n\n".toList else []) ++
          config.LastComment ∧
      (config.FirstComment = [] →
        buildContent readFile [] config = config.FirstComment ++ config.LastComment) := by
  rw [buildContent_eq]
  constructor
  · simp [sections]
  · intro h
    simp [sections, h]

/-- C10 amended, at a concrete input: no header and the footer `F`. -/
theorem C10_empty_amended_witness :
    buildContent (fun _ => none) [] ⟨[], [], [], [], "F".toList⟩ = [] ++ "F".toList :=
  (C10_empty_amended (fun _ => none) ⟨[], [], [], [], "F".toList⟩).2 rfl

/-! ## Paths: `Split`, `Clean` and `Join` -/

theorem splitAux_append (sep : Char) (a b cur : Str) :
    splitAux sep (a ++ sep :: b) cur = splitAux sep a cur ++ splitAux sep b [] := by
  induction a generalizing cur with
  | nil => simp [splitAux]
  | cons c a ih =>
    by_cases hc : c = sep
    · simp [splitAux, hc, ih]
    · simp [splitAux, hc, ih]

theorem splitAux_no_sep (sep : Char) (s cur : Str) (hcur : sep ∉ cur) :
    ∀ e ∈ splitAux sep s cur, sep ∉ e := by
  induction s generalizing cur with
  | nil =>
    intro e he
    simp only [splitAux, List.mem_singleton] at he
    simpa [he] using hcur
  | cons c s ih =>
    by_cases hc : c = sep
    · intro e he
      simp only [splitAux, hc, if_true, List.mem_cons] at he
      rcases he with rfl | he
      · simpa using hcur
      · exact ih [] (by simp) e he
    · simp only [splitAux, hc, if_false]
      exact ih (c :: cur) (by simp [hcur, Ne.symm hc])

theorem goodKept_cleanStep (rooted : Bool) (kept : List Str) (elem : Str)
    (hk : goodKept rooted kept) (he : '/' ∉ elem) :
    goodKept rooted (cleanStep rooted kept elem) := by
  unfold cleanStep
  by_cases h1 : elem = [] ∨ elem = ['.']
  · rw [if_pos h1]
    exact hk
  · rw [if_neg h1]
    push_neg at h1
    by_cases h2 : elem = ['.', '.']
    · rw [if_pos h2]
      cases kept with
      | nil => cases rooted <;> simp [goodKept, h2]
      | cons top below =>
        obtain ⟨t1, t2, t3, t4, t5⟩ := hk
        by_cases h3 : top = ['.', '.']
        · simp only [h3, if_true]
          obtain ⟨hr, hall⟩ := t4 h3
          refine ⟨h2 ▸ h1.1, h2 ▸ he, h2 ▸ h1.2, fun _ => ⟨hr, ?_⟩, ?_⟩
          · intro x hx
            rcases List.mem_cons.1 hx with rfl | hx
            · rfl
            · exact hall x hx
          · exact h3 ▸ ⟨t1, t2, t3, t4, t5⟩
        · simp only [h3, if_false]
          exact t5
    · rw [if_neg h2]
      exact ⟨h1.1, he, h1.2, fun h => absurd h h2, hk⟩

theorem goodKept_foldl (rooted : Bool) (elems : List Str) (kept : List Str)
    (hk : goodKept rooted kept) (he : ∀ e ∈ elems, '/' ∉ e) :
    goodKept rooted (elems.foldl (cleanStep rooted) kept) := by
  induction elems generalizing kept with
  | nil => exact hk
  | cons e elems ih =>
    rw [List.foldl_cons]
    exact ih _ (goodKept_cleanStep rooted kept e hk (he e (List.mem_cons_self _ _)))
      (fun x hx => he x (List.mem_cons_of_mem _ hx))

theorem goodKept_cleanElems (path : Str) :
    goodKept (decide (path.head? = some '/')) (cleanElems path) :=
  goodKept_foldl _ _ [] trivial (splitAux_no_sep '/' path [] (by simp))

theorem foldl_cleanStep_reverse (rooted : Bool) (kept : List Str) (hk : goodKept rooted kept) :
    kept.reverse.foldl (cleanStep rooted) [] = kept := by
  induction kept with
  | nil => rfl
  | cons e below ih =>
    obtain ⟨h1, _, h3, h4, h5⟩ := hk
    rw [List.reverse_cons, List.foldl_append, ih h5]
    simp only [List.foldl_cons, List.foldl_nil]
    unfold cleanStep
    rw [if_neg (by simp [h1, h3])]
    by_cases hd : e = ['.', '.']
    · rw [if_pos hd]
      obtain ⟨hr, hall⟩ := h4 hd
      cases below with
      | nil => simp [hr, hd]
      | cons top b => simp [hall top (List.mem_cons_self _ _), hd]
    · rw [if_neg hd]

theorem goodKept_mem (rooted : Bool) (kept : List Str) (hk : goodKept rooted kept) :
    ∀ e ∈ kept, e ≠ [] ∧ '/' ∉ e := by
  induction kept with
  | nil => simp
  | cons e below ih =>
    obtain ⟨h1, h2, _, _, h5⟩ := hk
    intro x hx
    rcases List.mem_cons.1 hx with rfl | hx
    · exact ⟨h1, h2⟩
    · exact ih h5 x hx

theorem Split_joinElems (elems : List Str) (hne : elems ≠ []) (h : ∀ e ∈ elems, '/' ∉ e) :
    Split (joinElems elems) '/' = elems := by
  induction elems with
  | nil => exact absurd rfl hne
  | cons e es ih =>
    have he : '/' ∉ e := h e (List.mem_cons_self _ _)
    cases es with
    | nil => simp [joinElems, Split, Split_of_not_mem '/' e [] he]
    | cons f es =>
      have ih2 := ih (by simp) (fun x hx => h x (List.mem_cons_of_mem _ hx))
      simp only [Split] at ih2
      simp [joinElems, Split, splitAux_append, Split_of_not_mem '/' e [] he, ih2]

theorem joinElems_head (e : Str) (es : List Str) (h1 : e ≠ []) (h2 : '/' ∉ e) :
    (joinElems (e :: es)).head? ≠ some '/' := by
  cases e with
  | nil => exact absurd rfl h1
  | cons c e =>
    have hc : c ≠ '/' := fun h => h2 (by simp [h])
    cases es <;> simp [joinElems, hc]

theorem joinElems_ne_nil (e : Str) (es : List Str) (h1 : e ≠ []) : joinElems (e :: es) ≠ [] := by
  cases es <;> simp [joinElems, h1]

/-- Cleaning a path a second time keeps the same elements. -/
theorem cleanElems_Clean (path : Str) : cleanElems (Clean path) = cleanElems path := by
  have hg := goodKept_cleanElems path
  have hm := goodKept_mem _ _ hg
  have hfold := foldl_cleanStep_reverse _ _ hg
  by_cases hr : path.head? = some '/'
  · simp only [hr, decide_True] at hg hfold
    have hc : Clean path = '/' :: joinElems (cleanElems path).reverse := by simp [Clean, hr]
    rw [hc]
    by_cases hk : cleanElems path = []
    · rw [hk]
      rfl
    · have hs : Split (joinElems (cleanElems path).reverse) '/' = (cleanElems path).reverse :=
        Split_joinElems _ (by simpa using hk) (fun e he => (hm e (List.mem_reverse.1 he)).2)
      have h0 : Split ('/' :: joinElems (cleanElems path).reverse) '/' =
          [] :: (cleanElems path).reverse := by
        have h00 : Split ('/' :: joinElems (cleanElems path).reverse) '/' =
            [] :: Split (joinElems (cleanElems path).reverse) '/' := by
          simp [Split, splitAux]
        rw [h00, hs]
      conv_lhs => rw [cleanElems, h0]
      simp only [List.head?_cons, decide_True, List.foldl_cons]
      have h1 : cleanStep true [] [] = [] := rfl
      rw [h1]
      exact hfold
  · simp only [hr, decide_False] at hg hfold
    by_cases hk : cleanElems path = []
    · have hc : Clean path = ['.'] := by simp [Clean, hr, hk, joinElems]
      rw [hc, hk]
      rfl
    · obtain ⟨e, es, hes⟩ := List.exists_cons_of_ne_nil (by simpa using hk :
        (cleanElems path).reverse ≠ [])
      have hemem : e ∈ cleanElems path := by
        rw [← List.mem_reverse, hes]
        exact List.mem_cons_self _ _
      have hb : joinElems (cleanElems path).reverse ≠ [] := by
        rw [hes]
        exact joinElems_ne_nil e es (hm e hemem).1
      have hc : Clean path = joinElems (cleanElems path).reverse := by simp [Clean, hr, hb]
      have hh : (joinElems (cleanElems path).reverse).head? ≠ some '/' := by
        rw [hes]
        exact joinElems_head e es (hm e hemem).1 (hm e hemem).2
      have hs : Split (joinElems (cleanElems path).reverse) '/' = (cleanElems path).reverse :=
        Split_joinElems _ (by simpa using hk) (fun e he => (hm e (List.mem_reverse.1 he)).2)
      rw [hc]
      conv_lhs => rw [cleanElems, hs]
      simp only [hh, decide_False]
      exact hfold

theorem Clean_ne_nil (path : Str) : Clean path ≠ [] := by
  unfold Clean
  by_cases hr : path.head? = some '/'
  · simp [hr]
  · by_cases hb : joinElems (cleanElems path).reverse = []
    · simp [hr, hb]
    · simp [hr, hb]

/-- The elements of the path of an entry: the name, on top of the elements of
the directory. -/
theorem cleanElems_Join (dir name : Str) (hd : dir ≠ []) (hn : validName name = true) :
    cleanElems (Join dir name) = name :: cleanElems dir ∧ Join dir name ≠ [] := by
  simp only [validName, Bool.and_eq_true, decide_eq_true_eq] at hn
  obtain ⟨⟨⟨n1, n2⟩, n3⟩, n4⟩ := hn
  have hj : Join dir name = Clean (dir ++ '/' :: name) := by simp [Join, hd, n1]
  rw [hj]
  refine ⟨?_, Clean_ne_nil _⟩
  rw [cleanElems_Clean]
  have hhead : (dir ++ '/' :: name).head? = dir.head? := by
    cases dir with
    | nil => exact absurd rfl hd
    | cons c d => rfl
  have hs : Split (dir ++ '/' :: name) '/' = Split dir '/' ++ [name] := by
    simp [Split, splitAux_append, Split_of_not_mem '/' name [] n2]
  rw [cleanElems, hs, hhead, List.foldl_append]
  simp only [List.foldl_cons, List.foldl_nil]
  rw [← cleanElems]
  simp [cleanStep, n1, n3, n4]

/-! ## The traversal -/

/-- With a walk function that always returns `nil`, `walkEntries` calls it on
the visits in order and ends with `nil`. -/
theorem walkEntries_of_nil {σ : Type} (fn : WalkFunc σ)
    (hfn : ∀ p i e s, (fn p i e s).2 = .nil) (path : Str) (es : Entries) (s : σ) :
    walkEntries fn path es s =
      ((entriesVisits path es).foldl (fun s v => (fn v.path v.info v.err s).1) s, .nil) := by
  induction es generalizing path s with
  | nil => rfl
  | file name rest ih => simp [walkEntries, entriesVisits, hfn, ih]
  | noStat name rest ih => simp [walkEntries, entriesVisits, hfn, ih]
  | noRead name rest ih => simp [walkEntries, entriesVisits, hfn, ih]
  | dir name children rest ihc ihr =>
    simp [walkEntries, entriesVisits, hfn, ihc, ihr, List.foldl_append]

theorem Walk_of_nil {σ : Type} (fn : WalkFunc σ)
    (hfn : ∀ p i e s, (fn p i e s).2 = .nil) (tree : Tree) (root : Str) (s : σ) :
    (Walk tree root fn s).1 =
      (treeVisits root tree).foldl (fun s v => (fn v.path v.info v.err s).1) s := by
  cases tree <;> simp [Walk, treeVisits, hfn, walkEntries_of_nil fn hfn]

theorem getFilesFn_nil (config : Config) (p : Str) (i : Option FileInfo) (e : Bool)
    (files : List Str) : (getFilesFn config p i e files).2 = .nil := by
  unfold getFilesFn
  split <;> rfl

theorem foldl_getFilesFn (config : Config) (visits : List Visit) (files : List Str) :
    visits.foldl (fun s v => (getFilesFn config v.path v.info v.err s).1) files =
      files ++ (visits.filter (keeps config)).map Visit.path := by
  induction visits generalizing files with
  | nil => simp
  | cons v visits ih =>
    rw [List.foldl_cons, ih]
    by_cases hk : keeps config v = true
    · have hk2 := hk
      simp only [keeps, Bool.not_eq_true', Bool.or_eq_false_iff] at hk2
      simp [getFilesFn, hk, hk2.1.1, hk2.1.2, hk2.2]
    · have hk3 : keeps config v = false := by simpa using hk
      have hk2 := hk3
      simp only [keeps, Bool.not_eq_false', ] at hk2
      simp [getFilesFn, hk3, hk2]

/-- The list returned by `getFiles`: the paths of the visits that the function
literal keeps, in visitation order. -/
theorem getFiles_eq (tree : Tree) (config : Config) :
    getFiles tree config =
      ((treeVisits (srcPath config) tree).filter (keeps config)).map Visit.path := by
  unfold getFiles
  rw [Walk_of_nil _ (getFilesFn_nil config), foldl_getFilesFn]
  rfl

theorem mem_getFiles (tree : Tree) (config : Config) (p : Str) (h : p ∈ getFiles tree config) :
    shouldIgnore p config = false := by
  rw [getFiles_eq, List.mem_map] at h
  obtain ⟨v, hv, rfl⟩ := h
  have hk := (List.mem_filter.1 hv).2
  simp only [keeps, Bool.not_eq_true', Bool.or_eq_false_iff] at hk
  exact hk.1.2

theorem srcPath_ne_nil (config : Config) : srcPath config ≠ [] := by
  unfold srcPath
  by_cases h : config.Src = []
  · simp [h]
  · simp [h]

theorem key_of_append {α : Type} (pre1 pre2 K : List α) (m1 m2 : α)
    (h : pre1 ++ m1 :: K = pre2 ++ m2 :: K) : m1 = m2 := by
  have h2 := (List.append_inj' h rfl).2
  exact (List.cons.inj h2).1

/-- The path of every visit below a directory has, as elements, those of the
directory, then the name of one of its entries, then possibly more. -/
theorem entriesVisits_under (es : Entries) (path : Str) (hp : path ≠ [])
    (hv : es.validNames = true) :
    ∀ v ∈ entriesVisits path es, ∃ m ∈ entryNames es, ∃ pre,
      cleanElems v.path = pre ++ m :: cleanElems path := by
  induction es generalizing path with
  | nil => simp [entriesVisits]
  | file name rest ih =>
    simp only [Entries.validNames, Bool.and_eq_true] at hv
    intro v hvm
    rcases List.mem_cons.1 hvm with rfl | hvm
    · exact ⟨name, by simp [entryNames], [], (cleanElems_Join path name hp hv.1).1⟩
    · obtain ⟨m, hm, pre, h⟩ := ih path hp hv.2 v hvm
      exact ⟨m, by simp [entryNames, hm], pre, h⟩
  | noStat name rest ih =>
    simp only [Entries.validNames, Bool.and_eq_true] at hv
    intro v hvm
    rcases List.mem_cons.1 hvm with rfl | hvm
    · exact ⟨name, by simp [entryNames], [], (cleanElems_Join path name hp hv.1).1⟩
    · obtain ⟨m, hm, pre, h⟩ := ih path hp hv.2 v hvm
      exact ⟨m, by simp [entryNames, hm], pre, h⟩
  | noRead name rest ih =>
    simp only [Entries.validNames, Bool.and_eq_true] at hv
    intro v hvm
    rcases List.mem_cons.1 hvm with rfl | hvm
    · exact ⟨name, by simp [entryNames], [], (cleanElems_Join path name hp hv.1).1⟩
    · obtain ⟨m, hm, pre, h⟩ := ih path hp hv.2 v hvm
      exact ⟨m, by simp [entryNames, hm], pre, h⟩
  | dir name children rest ihc ihr =>
    simp only [Entries.validNames, Bool.and_eq_true] at hv
    obtain ⟨hj, hjne⟩ := cleanElems_Join path name hp hv.1.1
    intro v hvm
    rcases List.mem_cons.1 hvm with rfl | hvm
    · exact ⟨name, by simp [entryNames], [], hj⟩
    · rcases List.mem_append.1 hvm with hvm | hvm
      · obtain ⟨m, _, pre, h⟩ := ihc (Join path name) hjne hv.1.2 v hvm
        refine ⟨name, by simp [entryNames], pre ++ [m], ?_⟩
        rw [h, hj]
        simp
      · obtain ⟨m, hm, pre, h⟩ := ihr path hp hv.2 v hvm
        exact ⟨m, by simp [entryNames, hm], pre, h⟩

/-- A visit whose path has the elements `name :: K` is not below entries whose
names differ from `name`. -/
theorem not_mem_of_key (es : Entries) (path x : Str) (name : Str) (hp : path ≠ [])
    (hv : es.validNames = true) (hx : cleanElems x = name :: cleanElems path)
    (hn : name ∉ entryNames es) : x ∉ (entriesVisits path es).map Visit.path := by
  intro hmem
  obtain ⟨v, hvm, rfl⟩ := List.mem_map.1 hmem
  obtain ⟨m, hm, pre, h⟩ := entriesVisits_under es path hp hv v hvm
  rw [hx] at h
  have h2 : [] ++ name :: cleanElems path = pre ++ m :: cleanElems path := h
  exact hn (key_of_append _ _ _ _ _ h2 ▸ hm)

/-- In a tree with valid and distinct sibling names, the visits below a
directory have distinct paths. -/
theorem entriesVisits_nodup (es : Entries) (path : Str) (hp : path ≠ [])
    (hv : es.validNames = true) (hd : es.distinctNames = true) :
    ((entriesVisits path es).map Visit.path).Nodup := by
  induction es generalizing path with
  | nil => simp [entriesVisits]
  | file name rest ih =>
    simp only [Entries.validNames, Entries.distinctNames, Bool.and_eq_true,
      decide_eq_true_eq] at hv hd
    simp only [entriesVisits, List.map_cons, List.nodup_cons]
    exact ⟨not_mem_of_key rest path _ name hp hv.2 (cleanElems_Join path name hp hv.1).1 hd.1,
      ih path hp hv.2 hd.2⟩
  | noStat name rest ih =>
    simp only [Entries.validNames, Entries.distinctNames, Bool.and_eq_true,
      decide_eq_true_eq] at hv hd
    simp only [entriesVisits, List.map_cons, List.nodup_cons]
    exact ⟨not_mem_of_key rest path _ name hp hv.2 (cleanElems_Join path name hp hv.1).1 hd.1,
      ih path hp hv.2 hd.2⟩
  | noRead name rest ih =>
    simp only [Entries.validNames, Entries.distinctNames, Bool.and_eq_true,
      decide_eq_true_eq] at hv hd
    simp only [entriesVisits, List.map_cons, List.nodup_cons]
    exact ⟨not_mem_of_key rest path _ name hp hv.2 (cleanElems_Join path name hp hv.1).1 hd.1,
      ih path hp hv.2 hd.2⟩
  | dir name children rest ihc ihr =>
    simp only [Entries.validNames, Entries.distinctNames, Bool.and_eq_true,
      decide_eq_true_eq] at hv hd
    obtain ⟨hj, hjne⟩ := cleanElems_Join path name hp hv.1.1
    simp only [entriesVisits, List.map_cons, List.map_append, List.nodup_cons,
      List.mem_append, not_or]
    refine ⟨⟨?_, not_mem_of_key rest path _ name hp hv.2 hj hd.1.1⟩, ?_⟩
    · intro hmem
      obtain ⟨v, hvm, hvp⟩ := List.mem_map.1 hmem
      obtain ⟨m, _, pre, h⟩ := entriesVisits_under children _ hjne hv.1.2 v hvm
      rw [hvp] at h
      have hl := congrArg List.length h
      simp at hl
      omega
    · rw [List.nodup_append]
      refine ⟨ihc _ hjne hv.1.2 hd.1.2, ihr path hp hv.2 hd.2, ?_⟩
      intro x hx1 hx2
      obtain ⟨v1, hv1, rfl⟩ := List.mem_map.1 hx1
      obtain ⟨v2, hv2, hv2p⟩ := List.mem_map.1 hx2
      obtain ⟨m1, _, pre1, h1⟩ := entriesVisits_under children _ hjne hv.1.2 v1 hv1
      obtain ⟨m2, hm2, pre2, h2⟩ := entriesVisits_under rest path hp hv.2 v2 hv2
      rw [hv2p, h1, hj] at h2
      have h3 : (pre1 ++ [m1]) ++ name :: cleanElems path = pre2 ++ m2 :: cleanElems path := by
        simpa using h2
      exact hd.1.1 (key_of_append _ _ _ _ _ h3 ▸ hm2)

theorem treeVisits_nodup (tree : Tree) (root : Str) (hp : root ≠ [])
    (hv : tree.validNames = true) (hd : tree.distinctNames = true) :
    ((treeVisits root tree).map Visit.path).Nodup := by
  cases tree with
  | file => simp [treeVisits]
  | noStat => simp [treeVisits]
  | noRead => simp [treeVisits]
  | dir children =>
    simp only [treeVisits, List.map_cons, List.nodup_cons]
    refine ⟨?_, entriesVisits_nodup children root hp hv hd⟩
    intro hmem
    obtain ⟨v, hvm, hvp⟩ := List.mem_map.1 hmem
    obtain ⟨m, _, pre, h⟩ := entriesVisits_under children root hp hv v hvm
    rw [hvp] at h
    have hl := congrArg List.length h
    simp at hl
    omega

theorem entriesVisits_noErrors (es : Entries) (path : Str) (he : es.noErrors = true) :
    ∀ v ∈ entriesVisits path es, v.err = false ∧ ∃ b, v.info = some ⟨b⟩ := by
  induction es generalizing path with
  | nil => simp [entriesVisits]
  | file name rest ih =>
    simp only [Entries.noErrors] at he
    intro v hv
    rcases List.mem_cons.1 hv with rfl | hv
    · exact ⟨rfl, false, rfl⟩
    · exact ih path he v hv
  | noStat name rest ih => simp [Entries.noErrors] at he
  | noRead name rest ih => simp [Entries.noErrors] at he
  | dir name children rest ihc ihr =>
    simp only [Entries.noErrors, Bool.and_eq_true] at he
    intro v hv
    rcases List.mem_cons.1 hv with rfl | hv
    · exact ⟨rfl, true, rfl⟩
    · rcases List.mem_append.1 hv with hv | hv
      · exact ihc _ he.1 v hv
      · exact ihr _ he.2 v hv

theorem treeVisits_noErrors (tree : Tree) (root : Str) (he : tree.noErrors = true) :
    ∀ v ∈ treeVisits root tree, v.err = false ∧ ∃ b, v.info = some ⟨b⟩ := by
  cases tree with
  | file => simp [treeVisits]
  | noStat => simp [Tree.noErrors] at he
  | noRead => simp [Tree.noErrors] at he
  | dir children =>
    intro v hv
    rcases List.mem_cons.1 hv with rfl | hv
    · exact ⟨rfl, true, rfl⟩
    · exact entriesVisits_noErrors children root he v hv

theorem count_eq_one_of_nodup (l : List Str) (a : Str) (hnd : l.Nodup) (h : a ∈ l) :
    l.count a = 1 := by
  induction l with
  | nil => simp at h
  | cons b l ih =>
    obtain ⟨h1, h2⟩ := List.nodup_cons.1 hnd
    rw [List.count_cons]
    by_cases hab : b = a
    · subst hab
      simp [List.count_eq_zero.2 h1]
    · have hmem : a ∈ l := by
        rcases List.mem_cons.1 h with h3 | h3
        · exact absurd h3.symm hab
        · exact h3
      simp [ih h2 hmem, hab]

theorem sections_emitted (readFile : Str → Option Str) (files : List Str) :
    sections readFile files =
      ((emitted readFile files).map (fun f => fileSection f ((readFile f).getD []))).flatten := by
  induction files with
  | nil => rfl
  | cons file files ih =>
    unfold emitted at ih ⊢
    cases h : readFile file with
    | none => simp [sections, h, ih, List.filter_cons]
    | some c => simp [sections, h, ih, List.filter_cons]

/-- C1: no path returned by `getFiles` satisfies `shouldIgnore`; in particular
a path to which an entry of the ignore spec applies in one of the three forms
(wildcard on the base name, directory entry, substring) is not returned; and
the text that `buildContent` makes of the returned list consists of the
header, the sections of returned files that are readable, none of which is
ignored, and the footer. -/
theorem C1_getFiles_excludes_ignored (tree : Tree) (config : Config)
    (readFile : Str → Option Str) :
    (∀ p ∈ getFiles tree config, shouldIgnore p config = false) ∧
    (∀ p e, e ∈ Split config.Ignore ',' → TrimSpace e ≠ [] → entryApplies p (TrimSpace e) →
      p ∉ getFiles tree config) ∧
    (buildContent readFile (getFiles tree config) config =
        (if config.FirstComment ≠ [] then config.FirstComment ++ "\n\n".toList else []) ++
          ((emitted readFile (getFiles tree config)).map
            (fun f => fileSection f ((readFile f).getD []))).flatten ++ config.LastComment ∧
      ∀ p ∈ emitted readFile (getFiles tree config), shouldIgnore p config = false) := by
  refine ⟨mem_getFiles tree config, ?_, ?_, ?_⟩
  · intro p e he hne ha hmem
    have h1 : shouldIgnore p config = true :=
      (shouldIgnore_iff p config).2 (Or.inr ⟨e, he, hne, ha⟩)
    rw [mem_getFiles tree config p hmem] at h1
    cases h1
  · rw [buildContent_eq, sections_emitted]
  · intro p hp
    exact mem_getFiles tree config p (List.mem_filter.1 hp).1

/-- C1, at the input of the specification: a directory with `a.txt` and
`b.log` and the ignore spec `*.log`; `a.txt` is returned, `b.log` is not. -/
theorem C1_getFiles_excludes_ignored_witness :
    "a.txt".toList ∈ getFiles (.dir (.file "a.txt".toList (.file "b.log".toList .nil)))
        ⟨".".toList, "*.log".toList, [], [], []⟩ ∧
      "b.log".toList ∉ getFiles (.dir (.file "a.txt".toList (.file "b.log".toList .nil)))
        ⟨".".toList, "*.log".toList, [], [], []⟩ :=
  ⟨by decide,
    (C1_getFiles_excludes_ignored (.dir (.file "a.txt".toList (.file "b.log".toList .nil)))
      ⟨".".toList, "*.log".toList, [], [], []⟩ (fun _ => none)).2.1
      "b.log".toList "*.log".toList (by decide) (by decide) (Or.inl ⟨by decide, rfl⟩)⟩

/-- C2: in a tree whose entries have valid names, distinct among siblings, and
whose nodes are all reported without error, the list returned by `getFiles` is
the sequence of visited nodes that are not directories and not ignored, in
visitation order; every such node occurs exactly once in it, and no directory
occurs in it. -/
theorem C2_getFiles_exact (tree : Tree) (config : Config)
    (hvalid : tree.validNames = true) (hdistinct : tree.distinctNames = true)
    (herr : tree.noErrors = true) :
    getFiles tree config =
        ((treeVisits (srcPath config) tree).filter
          (fun v => decide (v.info = some ⟨false⟩) && !shouldIgnore v.path config)).map
          Visit.path ∧
    (∀ v ∈ treeVisits (srcPath config) tree, v.info = some ⟨false⟩ →
      shouldIgnore v.path config = false → (getFiles tree config).count v.path = 1) ∧
    (∀ v ∈ treeVisits (srcPath config) tree, v.info = some ⟨true⟩ →
      v.path ∉ getFiles tree config) := by
  have hne := treeVisits_noErrors tree (srcPath config) herr
  have hnd := treeVisits_nodup tree (srcPath config) (srcPath_ne_nil config) hvalid hdistinct
  have hkeep : ∀ v ∈ treeVisits (srcPath config) tree,
      keeps config v = (decide (v.info = some ⟨false⟩) && !shouldIgnore v.path config) := by
    intro v hv
    obtain ⟨h1, b, h2⟩ := hne v hv
    cases b <;> cases h3 : shouldIgnore v.path config <;> simp [keeps, h1, h2, h3]
  have heq := getFiles_eq tree config
  have hnd2 : (getFiles tree config).Nodup := by
    rw [heq]
    exact hnd.sublist (List.Sublist.map _ (List.filter_sublist _))
  refine ⟨?_, ?_, ?_⟩
  · rw [heq, List.filter_congr hkeep]
  · intro v hv hi hs
    apply count_eq_one_of_nodup _ _ hnd2
    rw [heq]
    exact List.mem_map.2 ⟨v, List.mem_filter.2 ⟨hv, by simp [hkeep v hv, hi, hs]⟩, rfl⟩
  · intro v hv hi hmem
    rw [heq] at hmem
    obtain ⟨w, hw, hwp⟩ := List.mem_map.1 hmem
    obtain ⟨hw1, hw2⟩ := List.mem_filter.1 hw
    have hwv : w = v := List.inj_on_of_nodup_map hnd hw1 hv hwp
    rw [hwv, hkeep v hv, hi] at hw2
    simp at hw2

/-- C2, at a concrete input: under `./src`, the files `a.txt` and `b.log` and
the directory `sub` with the file `c.go`, with the ignore spec `*.log`. -/
theorem C2_getFiles_exact_witness :
    getFiles (.dir (.file "a.txt".toList (.file "b.log".toList
        (.dir "sub".toList (.file "c.go".toList .nil) .nil))))
        ⟨"./src".toList, "*.log".toList, [], [], []⟩ =
      ["src/a.txt".toList, "src/sub/c.go".toList] :=
  (C2_getFiles_exact (.dir (.file "a.txt".toList (.file "b.log".toList
      (.dir "sub".toList (.file "c.go".toList .nil) .nil))))
    ⟨"./src".toList, "*.log".toList, [], [], []⟩ (by decide) (by decide) (by decide)).1.trans
    (by decide)

/-! ## The language tag -/

/-- What the loop of `Ext` returns, reading the reversed path: nothing when no
dot comes before the first `/`, else the dot and what was read before it. -/
theorem extLoop_eq (rev acc : Str) :
    extLoop rev acc =
      if '.' ∈ rev.takeWhile (fun d => d != '/') then
        '.' :: ((rev.takeWhile (fun d => d != '.')).reverse ++ acc)
      else [] := by
  induction rev generalizing acc with
  | nil => simp [extLoop]
  | cons c rev ih =>
    unfold extLoop
    by_cases h1 : c = '/'
    · simp [h1]
    · by_cases h2 : c = '.'
      · simp [h2]
      · have h3 : ¬ '.' = c := fun h => h2 h.symm
        rw [if_neg h1, if_neg h2, ih]
        simp [List.takeWhile_cons, h1, h2, h3]

theorem takeWhile_takeWhile_dot (rev : Str)
    (h : '.' ∈ rev.takeWhile (fun d => d != '/')) :
    (rev.takeWhile (fun d => d != '/')).takeWhile (fun d => d != '.') =
      rev.takeWhile (fun d => d != '.') := by
  induction rev with
  | nil => simp at h
  | cons c rev ih =>
    by_cases h1 : c = '/'
    · simp [h1] at h
    · by_cases h2 : c = '.'
      · simp [List.takeWhile_cons, h2]
      · have h3 : ¬ '.' = c := fun h => h2 h.symm
        simp only [List.takeWhile_cons, bne_iff_ne, ne_eq, h1, not_false_eq_true, ite_true,
          List.mem_cons, h3, false_or] at h
        simp [List.takeWhile_cons, h1, h2, ih h]

/-- The text after the last `c` follows a `c` and holds no `c`. -/
theorem afterLast_spec (c : Char) (s : Str) (h : c ∈ s) :
    ∃ before, s = before ++ c :: afterLast c s ∧ c ∉ afterLast c s := by
  have h1 : s.reverse = s.reverse.takeWhile (fun d => d != c) ++
      s.reverse.dropWhile (fun d => d != c) := (List.takeWhile_append_dropWhile _ _).symm
  have hmem : c ∉ s.reverse.takeWhile (fun d => d != c) := by
    intro hc
    have := List.mem_takeWhile_imp hc
    simp at this
  have h2 : s.reverse.dropWhile (fun d => d != c) ≠ [] := by
    intro he
    rw [he, List.append_nil] at h1
    rw [← h1] at hmem
    exact hmem (List.mem_reverse.2 h)
  obtain ⟨x, xs, hx⟩ := List.exists_cons_of_ne_nil h2
  have hxc : x = c := by
    have h3 := List.head_dropWhile_not (fun d => d != c) s.reverse h2
    simp only [hx, List.head_cons] at h3
    simpa using h3
  refine ⟨xs.reverse, ?_, ?_⟩
  · have h4 := congrArg List.reverse h1
    rw [List.reverse_reverse, List.reverse_append, hx, List.reverse_cons, hxc] at h4
    exact h4.trans (by simp [afterLast])
  · simpa [afterLast] using hmem

theorem afterLast_of_not_mem (c : Char) (s : Str) (h : c ∉ s) : afterLast c s = s := by
  unfold afterLast
  have h1 : s.reverse.takeWhile (fun d => d != c) = s.reverse := by
    rw [List.takeWhile_eq_self_iff]
    intro x hx
    have : x ≠ c := fun e => h (e ▸ List.mem_reverse.1 hx)
    simpa using this
  rw [h1, List.reverse_reverse]

/-- C11: the language tag is `text` when the final component of the path (the
text after its last `/`) contains no dot, and otherwise the text after the
last dot of that component, that is, the extension without its dot; the final
component is the base name of a non-empty path that does not end with `/`. -/
theorem C11_langTag (file : Str) :
    ('.' ∉ finalComponent file → langTag file = "text".toList) ∧
      ('.' ∈ finalComponent file →
        langTag file = afterLast '.' (finalComponent file) ∧
        Ext file = '.' :: langTag file ∧
        ∃ stem, finalComponent file = stem ++ '.' :: langTag file ∧ '.' ∉ langTag file) ∧
      (file ≠ [] → file.getLast? ≠ some '/' → finalComponent file = Base file) := by
  have hext : Ext file =
      if '.' ∈ finalComponent file then '.' :: afterLast '.' (finalComponent file) else [] := by
    unfold Ext
    rw [extLoop_eq]
    by_cases h : '.' ∈ file.reverse.takeWhile (fun d => d != '/')
    · have h2 : '.' ∈ finalComponent file := by
        simpa [finalComponent, afterLast] using h
      rw [if_pos h, if_pos h2]
      simp [finalComponent, afterLast, takeWhile_takeWhile_dot file.reverse h]
    · have h2 : '.' ∉ finalComponent file := by
        simpa [finalComponent, afterLast] using h
      rw [if_neg h, if_neg h2]
  refine ⟨?_, ?_, ?_⟩
  · intro h
    simp [langTag, hext, h]
  · intro h
    have ht : langTag file = afterLast '.' (finalComponent file) := by
      simp [langTag, hext, h]
    refine ⟨ht, ?_, ?_⟩
    · rw [hext, if_pos h, ht]
    · rw [ht]
      exact afterLast_spec '.' (finalComponent file) h
  · intro hne hlast
    obtain ⟨c, rest, hrev⟩ := List.exists_cons_of_ne_nil
      (by simpa using hne : file.reverse ≠ [])
    have hc : c ≠ '/' := by
      intro hc
      apply hlast
      have : file = rest.reverse ++ [c] := by
        have := congrArg List.reverse hrev
        simpa using this
      rw [this, hc]
      simp
    have hc2 : ¬ '/' = c := fun h => hc h.symm
    simp [finalComponent, afterLast, Base, hne, hrev, hc, hc2, List.takeWhile_cons,
      List.dropWhile_cons]

/-- C11, at the inputs of the specification: `a.go` gives `go` and `README`
gives `text`. -/
theorem C11_langTag_witness :
    langTag "README".toList = "text".toList ∧ langTag "a.go".toList = "go".toList :=
  ⟨(C11_langTag "README".toList).1 (by decide),
    ((C11_langTag "a.go".toList).2.1 (by decide)).1.trans (by decide)⟩

/-! ## Unreadable files, the default configuration, `.gitignore`, and joined specs -/

theorem sections_filter (readFile : Str → Option Str) (files : List Str) :
    sections readFile (emitted readFile files) = sections readFile files := by
  induction files with
  | nil => rfl
  | cons file files ih =>
    unfold emitted at ih ⊢
    cases h : readFile file with
    | none => simp [sections, h, ih, List.filter_cons]
    | some c => simp [sections, h, ih, List.filter_cons]

/-- C12: an entry whose read fails contributes nothing and does not stop the
assembly: `buildContent` on a list equals `buildContent` on the list without
its unreadable entries, and its text is the header, the sections of the
readable entries in order, and the footer. -/
theorem C12_unreadable_skipped (readFile : Str → Option Str) (files : List Str)
    (config : Config) :
    buildContent readFile files config =
        buildContent readFile (files.filter (fun f => (readFile f).isSome)) config ∧
      buildContent readFile files config =
        (if config.FirstComment ≠ [] then config.FirstComment ++ "\n\n".toList else []) ++
          ((files.filter (fun f => (readFile f).isSome)).map
            (fun f => fileSection f ((readFile f).getD []))).flatten ++ config.LastComment := by
  constructor
  · rw [buildContent_eq, buildContent_eq]
    have h := sections_filter readFile files
    unfold emitted at h
    rw [h]
  · rw [buildContent_eq, sections_emitted]
    rfl

/-- C13 as stated fails: when the configuration file cannot be read,
`loadConfig` returns a configuration whose `FirstComment` and `LastComment`
are not empty. -/
theorem C13_default_counterexample :
    (loadConfig none (fun _ c => c)).FirstComment = "/* Project Context */".toList ∧
      (loadConfig none (fun _ c => c)).LastComment = "/* End of Context */".toList ∧
      ¬ ((loadConfig none (fun _ c => c)).FirstComment = [] ∧
        (loadConfig none (fun _ c => c)).LastComment = []) := by
  decide

/-- C13, amended: when the configuration file cannot be read, the
configuration is the one of `getDefaultConfig`, with source `.`, output `.`,
an empty ignore spec, the header `/* Project Context */` and the footer
`/* End of Context */`. -/
theorem C13_default_amended (unmarshal : Str → Config → Config) :
    loadConfig none unmarshal = getDefaultConfig ∧
      (loadConfig none unmarshal).Src = ".".toList ∧
      (loadConfig none unmarshal).Output = ".".toList ∧
      (loadConfig none unmarshal).Ignore = [] ∧
      (loadConfig none unmarshal).FirstComment = "/* Project Context */".toList ∧
      (loadConfig none unmarshal).LastComment = "/* End of Context */".toList :=
  ⟨rfl, rfl, rfl, rfl, rfl, rfl⟩

theorem updateGitignore_of_contains (content : Str)
    (h : Contains content "mkctx/".toList = true) : updateGitignore (some content) = content := by
  show (if (!Contains content "mkctx/".toList) = true then _ else _) = _
  rw [h]
  rfl

theorem updateGitignore_of_not_contains (content : Str)
    (h : Contains content "mkctx/".toList = false) :
    updateGitignore (some content) =
      content ++ "\n# mkctx - generated context\nmkctx/\n".toList := by
  show (if (!Contains content "mkctx/".toList) = true then _ else _) = _
  rw [h]
  rfl

theorem updateGitignore_contains (existing : Option Str) :
    "mkctx/".toList <:+: updateGitignore existing := by
  cases existing with
  | none => exact ⟨"# mkctx - generated context\n".toList, "\n".toList, rfl⟩
  | some content =>
    cases h : Contains content "mkctx/".toList
    · rw [updateGitignore_of_not_contains content h]
      exact ⟨content ++ "\n# mkctx - generated context\n".toList, "\n".toList, by
        rw [List.append_assoc, List.append_assoc]
        rfl⟩
    · rw [updateGitignore_of_contains content h]
      exact (Contains_iff _ _).1 h

/-- C15: the text that `updateGitignore` writes always contains `mkctx/`, has
the existing text as a beginning (the empty text when there is no file), is
the existing text when that already contains `mkctx/`, and running the update
again on the text written changes nothing. -/
theorem C15_updateGitignore (existing : Option Str) :
    "mkctx/".toList <:+: updateGitignore existing ∧
      existing.getD [] <+: updateGitignore existing ∧
      (∀ content, existing = some content → "mkctx/".toList <:+: content →
        updateGitignore existing = content) ∧
      updateGitignore (some (updateGitignore existing)) = updateGitignore existing := by
  refine ⟨updateGitignore_contains existing, ?_, ?_, ?_⟩
  · cases existing with
    | none => exact ⟨updateGitignore none, rfl⟩
    | some content =>
      cases h : Contains content "mkctx/".toList
      · rw [updateGitignore_of_not_contains content h]
        exact ⟨_, rfl⟩
      · rw [updateGitignore_of_contains content h]
        exact ⟨[], List.append_nil _⟩
  · intro content hc hin
    subst hc
    exact updateGitignore_of_contains content ((Contains_iff _ _).2 hin)
  · exact updateGitignore_of_contains _
      ((Contains_iff _ _).2 (updateGitignore_contains existing))

/-- C15, at a concrete input: a `.gitignore` that already lists `mkctx/` is
written back unchanged. -/
theorem C15_updateGitignore_witness :
    updateGitignore (some "bin/\nmkctx/\n".toList) = "bin/\nmkctx/\n".toList :=
  (C15_updateGitignore (some "bin/\nmkctx/\n".toList)).2.2.1 "bin/\nmkctx/\n".toList rfl
    ⟨"bin/\n".toList, "\n".toList, rfl⟩

/-- C16: with the ignore spec `s1`, a comma, then `s2`, `shouldIgnore` answers
the disjunction of its answers with `s1` and with `s2`, the other fields being
the same; so adding patterns can only grow the set of ignored paths. -/
theorem C16_joined_specs (path : Str) (config : Config) (s1 s2 : Str) :
    shouldIgnore path { config with Ignore := s1 ++ ",".toList ++ s2 } =
        (shouldIgnore path { config with Ignore := s1 } ||
          shouldIgnore path { config with Ignore := s2 }) ∧
      (shouldIgnore path { config with Ignore := s1 } = true →
        shouldIgnore path { config with Ignore := s1 ++ ",".toList ++ s2 } = true) := by
  have h : Split (s1 ++ ",".toList ++ s2) ',' = Split s1 ',' ++ Split s2 ',' := by
    have h0 : s1 ++ ",".toList ++ s2 = s1 ++ ',' :: s2 := by simp
    rw [h0]
    exact splitAux_append ',' s1 s2 []
  have heq : shouldIgnore path { config with Ignore := s1 ++ ",".toList ++ s2 } =
      (shouldIgnore path { config with Ignore := s1 } ||
        shouldIgnore path { config with Ignore := s2 }) := by
    rw [shouldIgnore_eq, shouldIgnore_eq, shouldIgnore_eq]
    simp only [h, List.any_append]
    cases (Contains path ".git".toList || Contains path ".DS_Store".toList ||
      Contains path "Thumbs.db".toList) <;> simp
  refine ⟨heq, ?_⟩
  intro h1
  rw [heq, h1]
  rfl

/-- C16, at a concrete input: the specs `*.log` and the empty spec, on
`a/b.log`. -/
theorem C16_joined_specs_witness :
    shouldIgnore "a/b.log".toList ⟨".".toList, "*.log,".toList, [], [], []⟩ = true :=
  (C16_joined_specs "a/b.log".toList ⟨".".toList, [], [], [], []⟩ "*.log".toList []).2
    (by decide)

/-! ## Pruning against filtering -/

theorem walkEntries_pruned (config : Config) (path : Str) (es : Entries) (files : List Str) :
    walkEntries (prunedFn config) path es files =
      (files ++ prunedPaths config path es, .nil) := by
  induction es generalizing path files with
  | nil => simp [walkEntries, prunedPaths]
  | file name rest ih =>
    cases h : shouldIgnore (Join path name) config <;>
      simp [walkEntries, prunedPaths, prunedFn, h, ih]
  | noStat name rest ih => simp [walkEntries, prunedPaths, prunedFn, ih]
  | noRead name rest ih => simp [walkEntries, prunedPaths, prunedFn, ih]
  | dir name children rest ihc ihr =>
    cases h : shouldIgnore (Join path name) config <;>
      simp [walkEntries, prunedPaths, prunedFn, h, ihc, ihr]

/-- A directory is not kept; what is kept after it is what is kept below it,
then what is kept among the next entries. -/
theorem kept_dir (config : Config) (p : Str) (a b : List Visit) :
    ((⟨p, some ⟨true⟩, false⟩ :: (a ++ b)).filter (keeps config)).map Visit.path =
      (a.filter (keeps config)).map Visit.path ++ (b.filter (keeps config)).map Visit.path := by
  simp [keeps, List.filter_cons]

theorem prunedPaths_sublist (config : Config) (path : Str) (es : Entries) :
    (prunedPaths config path es).Sublist
      (((entriesVisits path es).filter (keeps config)).map Visit.path) := by
  induction es generalizing path with
  | nil => simp [prunedPaths, entriesVisits]
  | file name rest ih =>
    cases h : shouldIgnore (Join path name) config
    · simpa [prunedPaths, entriesVisits, keeps, h, List.filter_cons] using ih path
    · simpa [prunedPaths, entriesVisits, keeps, h, List.filter_cons] using ih path
  | noStat name rest ih =>
    simpa [prunedPaths, entriesVisits, keeps, List.filter_cons] using ih path
  | noRead name rest ih =>
    simpa [prunedPaths, entriesVisits, keeps, List.filter_cons] using ih path
  | dir name children rest ihc ihr =>
    rw [prunedPaths, entriesVisits, kept_dir]
    cases h : shouldIgnore (Join path name) config
    · rw [if_neg (by simp)]
      exact List.Sublist.append (ihc _) (ihr _)
    · rw [if_pos rfl]
      exact List.Sublist.append (List.nil_sublist _) (ihr _)

theorem kept_nil_of_all_ignored (config : Config) (visits : List Visit)
    (h : visits.all (fun v => shouldIgnore v.path config) = true) :
    (visits.filter (keeps config)).map Visit.path = [] := by
  rw [List.all_eq_true] at h
  rw [List.map_eq_nil_iff, List.filter_eq_nil_iff]
  intro v hv
  simp [keeps, h v hv]

theorem prunedPaths_eq (config : Config) (path : Str) (es : Entries)
    (hi : es.ignoreInherited config path = true) :
    prunedPaths config path es =
      ((entriesVisits path es).filter (keeps config)).map Visit.path := by
  induction es generalizing path with
  | nil => simp [prunedPaths, entriesVisits]
  | file name rest ih =>
    simp only [Entries.ignoreInherited] at hi
    cases h : shouldIgnore (Join path name) config <;>
      simp [prunedPaths, entriesVisits, keeps, h, List.filter_cons, ih path hi]
  | noStat name rest ih =>
    simp only [Entries.ignoreInherited] at hi
    simp [prunedPaths, entriesVisits, keeps, List.filter_cons, ih path hi]
  | noRead name rest ih =>
    simp only [Entries.ignoreInherited] at hi
    simp [prunedPaths, entriesVisits, keeps, List.filter_cons, ih path hi]
  | dir name children rest ihc ihr =>
    simp only [Entries.ignoreInherited, Bool.and_eq_true, Bool.or_eq_true,
      Bool.not_eq_true'] at hi
    obtain ⟨⟨h1, h2⟩, h3⟩ := hi
    rw [prunedPaths, entriesVisits, kept_dir, ihr path h3]
    cases h : shouldIgnore (Join path name) config
    · rw [if_neg (by simp), ihc _ h2]
    · rw [h] at h1
      rw [if_pos rfl, kept_nil_of_all_ignored config _ (h1.resolve_left (by simp))]

theorem getFilesPruned_eq (tree : Tree) (config : Config) :
    getFilesPruned tree config =
      match tree with
      | .file => if shouldIgnore (srcPath config) config then [] else [srcPath config]
      | .noStat => []
      | .noRead => []
      | .dir children =>
        if shouldIgnore (srcPath config) config then []
        else prunedPaths config (srcPath config) children := by
  unfold getFilesPruned
  cases tree with
  | file => cases h : shouldIgnore (srcPath config) config <;> simp [Walk, prunedFn, h]
  | noStat => simp [Walk, prunedFn]
  | noRead => simp [Walk, prunedFn]
  | dir children =>
    cases h : shouldIgnore (srcPath config) config <;>
      simp [Walk, prunedFn, h, walkEntries_pruned]

/-- C14 as stated fails: under `.` with the directory `build` holding `x.go`
and the ignore spec `b*`, the directory is flagged (its name matches) but the
file `build/x.go` is not (its base name is `x.go`); `getFiles` returns that
file and the pruning traversal returns nothing. -/
theorem C14_pruning_counterexample :
    shouldIgnore "build".toList ⟨".".toList, "b*".toList, [], [], []⟩ = true ∧
      shouldIgnore "build/x.go".toList ⟨".".toList, "b*".toList, [], [], []⟩ = false ∧
      getFiles (.dir (.dir "build".toList (.file "x.go".toList .nil) .nil))
        ⟨".".toList, "b*".toList, [], [], []⟩ = ["build/x.go".toList] ∧
      getFilesPruned (.dir (.dir "build".toList (.file "x.go".toList .nil) .nil))
        ⟨".".toList, "b*".toList, [], [], []⟩ = [] ∧
      getFilesPruned (.dir (.dir "build".toList (.file "x.go".toList .nil) .nil))
        ⟨".".toList, "b*".toList, [], [], []⟩ ≠
      getFiles (.dir (.dir "build".toList (.file "x.go".toList .nil) .nil))
        ⟨".".toList, "b*".toList, [], [], []⟩ := by
  decide

/-- C14, amended: the pruning traversal returns a sublist of the list of
`getFiles` (the same paths in the same order, possibly fewer), and the two
lists are equal when every node under a flagged directory is flagged too. -/
theorem C14_pruning_amended (tree : Tree) (config : Config) :
    (getFilesPruned tree config).Sublist (getFiles tree config) ∧
      (tree.ignoreInherited config (srcPath config) = true →
        getFilesPruned tree config = getFiles tree config) := by
  rw [getFilesPruned_eq, getFiles_eq]
  cases tree with
  | file =>
    cases h : shouldIgnore (srcPath config) config <;> simp [treeVisits, keeps, h, List.filter_cons]
  | noStat => simp [treeVisits, keeps, List.filter_cons]
  | noRead => simp [treeVisits, keeps, List.filter_cons]
  | dir children =>
    have hk := kept_dir config (srcPath config) (entriesVisits (srcPath config) children) []
    simp only [List.append_nil, List.filter_nil, List.map_nil] at hk
    rw [treeVisits, hk]
    cases h : shouldIgnore (srcPath config) config
    · refine ⟨by simpa using prunedPaths_sublist config _ children, ?_⟩
      intro hi
      simp only [Tree.ignoreInherited, Bool.and_eq_true] at hi
      simpa using prunedPaths_eq config _ children hi.2
    · refine ⟨by simp, ?_⟩
      intro hi
      simp only [Tree.ignoreInherited, Bool.and_eq_true, Bool.or_eq_true, Bool.not_eq_true',
        h] at hi
      have h4 := kept_nil_of_all_ignored config _ (hi.1.resolve_left (by simp))
      simp [h4]

/-- C14 amended, at a concrete input: under `.` with the directory `build`
holding `x.go`, the file `y.go`, and the ignore spec `build/`. -/
theorem C14_pruning_amended_witness :
    getFilesPruned (.dir (.dir "build".toList (.file "x.go".toList .nil)
        (.file "y.go".toList .nil))) ⟨".".toList, "build/".toList, [], [], []⟩ =
      getFiles (.dir (.dir "build".toList (.file "x.go".toList .nil)
        (.file "y.go".toList .nil))) ⟨".".toList, "build/".toList, [], [], []⟩ :=
  (C14_pruning_amended (.dir (.dir "build".toList (.file "x.go".toList .nil)
    (.file "y.go".toList .nil))) ⟨".".toList, "build/".toList, [], [], []⟩).2 (by decide)

end Mkctx
